import Mathlib

/-!
Verification development for the boolean-solver equational prover
(`src/prover.cpp`).  The C++ source is embedded shallowly: formula trees
become the inductive type `Node`, the canonical printer becomes
`to_string`, the tokenizer/parser pair becomes `tokenize`/`parse_formula`,
the matcher/substituter become `get_rule_replacements`/`replace_variables`,
the rewriter becomes `possible_next_trees`, and the breadth-first search
`find_shortest_path` becomes a fuel-indexed function `bfsRun` over an
explicit `SearchState`.

Modelling notes, recorded once here:

* The C++ `Node` is a struct `{token, type, children}` with a `vector` of
  children.  Every node the program ever constructs is a PRIM, VAR or
  UNRES leaf, a unary OP whose token is `~`, or a binary OP whose token is
  `*` or `+` (the parser only builds these shapes and every other
  component copies them), so the embedding splits the type by arity:
  `op1` is the unary OP (token `~`), `op2 tok l r` the binary OP.

* `prover.cpp` does not compile as shipped: line 611 calls
  `trees_equal(scope[rule.token], node)` although `trees_equal` is
  declared with three mandatory parameters (and the build uses
  `-Wall -Werror`, which also rejects the control paths of `trees_equal`
  that fall off the end without a return).  The embedding uses the
  minimal repair, passing a fresh empty `resolutions` map exactly as the
  author's own two-argument wrapper for the sibling function
  `trees_resolvable` does, and models the fall-off-the-end control paths
  of `trees_equal` as `none` (undefined behaviour).

* C++ `std::map` reads through `operator[]` are modelled as lookups with
  default (`(find_assoc m k).getD 0` for the depth map); the silent
  insertion of a default value that `operator[]` performs is not
  observable anywhere in the program and is not modelled.  The lookup of
  a missing key in `replace_variables` would yield a default-constructed
  C++ node; that path is unreachable from `apply_transformation` (which
  populates every template variable) and is modelled by the junk value
  `default_node`.

* Loops that the C++ runs unboundedly (the BFS `while` loop and the
  parent-chain walk of the path reconstruction) take an explicit fuel
  argument; exhausting it is the distinguished outcome `outOfFuel`.
  `bfsRun` additionally returns its final `SearchState` and the list of
  expansion events it performed (which node was expanded, with which
  successor list).  These are the exit values of the C++ function's
  locals; they do not influence control flow and exist so that the
  visited-set and shortest-path properties can be stated.
-/

/-- Formula trees of the prover: the C++ `struct Node` restricted to the
four formula node types (`PRIM`, `VAR`, `UNRES`, `OP`), with the OP
arities the program constructs (`~` unary; `*`/`+` binary). -/
inductive Node where
  | prim (token : String)
  | var (token : String)
  | unres (token : String)
  | op1 (child : Node)
  | op2 (token : String) (left right : Node)
deriving DecidableEq, Repr

/-- The canonical printer `to_string(Node)` of `prover.cpp`, restricted to
formula nodes: leaves print their token, `~` prints `(~ c)`, a binary
operator prints `(tok l r)`. -/
def to_string : Node → String
  | Node.prim tok => tok
  | Node.var tok => tok
  | Node.unres tok => tok
  | Node.op1 c => "(~ " ++ to_string c ++ ")"
  | Node.op2 tok l r => "(" ++ tok ++ " " ++ to_string l ++ " " ++ to_string r ++ ")"

/-- `is_single_char_token` of `prover.cpp`. -/
def is_single_char_token (c : Char) : Bool :=
  c = '*' || c = '+' || c = '~' || c = '=' || c = ':' || c = '(' || c = ')' || c = '.'

/-- A character that may appear in a word token (`isalnum(c) || c == '_'`
in the tokenizer, ASCII). -/
def is_word_char (c : Char) : Bool :=
  c.isAlphanum || c = '_'

/-- `is_prim_token` of `prover.cpp`. -/
def is_prim_token (tok : String) : Bool :=
  tok = "0" || tok = "1"

/-- `is_id_token` of `prover.cpp`: non-empty, first character a letter or
underscore, all characters alphanumeric or underscore. -/
def is_id_token (tok : String) : Bool :=
  match tok.data with
  | [] => false
  | c :: _ => (c = '_' || c.isAlpha) && tok.data.all (fun d => d.isAlphanum || d = '_')

/-- `is_uop_token` of `prover.cpp`. -/
def is_uop_token (tok : String) : Bool := tok = "~"

/-- `is_bop_token` of `prover.cpp`. -/
def is_bop_token (tok : String) : Bool := tok = "*" || tok = "+"

/-- The tokenizer of `prover.cpp` (`Tokenizer::next` iterated to the end
of the input): skip whitespace, emit each single-character token on its
own, and group maximal runs of word characters into word tokens.  An
out-of-alphabet character is a fatal tokenizer error, modelled as `none`.
Comments (`#`) cannot occur in canonical text and are not modelled. -/
def tokenize : List Char → Option (List String)
  | [] => some []
  | c :: cs =>
    if c.isWhitespace then tokenize cs
    else if is_single_char_token c then
      match tokenize cs with
      | none => none
      | some toks => some (String.mk [c] :: toks)
    else if is_word_char c then
      match tokenize (cs.dropWhile is_word_char) with
      | none => none
      | some toks => some (String.mk (c :: cs.takeWhile is_word_char) :: toks)
    else none
termination_by l => l.length
decreasing_by
  all_goals simp only [List.length_cons]
  · omega
  · omega
  · have h : ∀ (l : List Char), (l.dropWhile is_word_char).length ≤ l.length := by
      intro l
      induction l with
      | nil => simp [List.dropWhile]
      | cons a t ih =>
        simp only [List.dropWhile]
        split
        · exact Nat.le_succ_of_le ih
        · simp
    exact Nat.lt_succ_of_le (h _)

/-- `parse_formula` of `prover.cpp`, phrased over the token stream, with
an explicit bound on the recursion depth (the C++ recursion is bounded by
the nesting of parentheses): a parenthesis opens a unary or binary
operator node, a prim token is a `PRIM` leaf, an identifier token is a
`VAR` leaf; every diagnostic path (which calls `exit(1)` in the C++) is
`none`.  Returns the parsed node together with the unconsumed tokens. -/
def parse_formula_fuel : Nat → List String → Option (Node × List String)
  | 0, _ => none
  | _, [] => none
  | fuel + 1, tok :: rest =>
    if tok = "(" then
      match rest with
      | [] => none
      | tok2 :: rest2 =>
        if is_uop_token tok2 then
          match parse_formula_fuel fuel rest2 with
          | none => none
          | some (c, rest3) =>
            match rest3 with
            | [] => none
            | close :: rest4 => if close = ")" then some (Node.op1 c, rest4) else none
        else if is_bop_token tok2 then
          match parse_formula_fuel fuel rest2 with
          | none => none
          | some (l, rest3) =>
            match parse_formula_fuel fuel rest3 with
            | none => none
            | some (r, rest4) =>
              match rest4 with
              | [] => none
              | close :: rest5 =>
                if close = ")" then some (Node.op2 tok2 l r, rest5) else none
        else none
    else if is_prim_token tok then some (Node.prim tok, rest)
    else if is_id_token tok then some (Node.var tok, rest)
    else none

/-- `parse_formula` on a complete token list: the token count bounds the
parenthesis nesting, so it is a sufficient recursion-depth bound. -/
def parse_formula (toks : List String) : Option (Node × List String) :=
  parse_formula_fuel toks.length toks

/-- The canonical token sequence of a term: `to_string` followed by the
tokenizer splits the canonical text into exactly these tokens. -/
def canonical_tokens : Node → List String
  | Node.prim tok => [tok]
  | Node.var tok => [tok]
  | Node.unres tok => [tok]
  | Node.op1 c => ["(", "~"] ++ canonical_tokens c ++ [")"]
  | Node.op2 tok l r => ["(", tok] ++ canonical_tokens l ++ canonical_tokens r ++ [")"]

/-- Well-formedness of a term as produced by the script parser: prim
leaves carry `0`/`1`, variable leaves carry valid identifiers, binary
operators carry `*` or `+`, and no `UNRES` occurs. -/
def wf : Node → Bool
  | Node.prim tok => is_prim_token tok
  | Node.var tok => is_id_token tok
  | Node.unres _ => false
  | Node.op1 c => wf c
  | Node.op2 tok l r => is_bop_token tok && wf l && wf r

/-- The C++ `struct Axiom`: a named pair of rewrite patterns. -/
structure Rule where
  name : String
  rule_a : Node
  rule_b : Node
deriving DecidableEq, Repr

/-- `VariableNameGenerator`: a monotone counter; `next` yields `?<idx>`
and increments. -/
def next_name (idx : Nat) : String × Nat :=
  ("?" ++ toString idx, idx + 1)

/-- The matcher's variable binding, C++ `map<string, Node>`, as an
association list with distinct keys. -/
abbrev Scope : Type := List (String × Node)

/-- First-entry lookup in an association list (C++ `map::find`). -/
def find_assoc {α : Type} : List (String × α) → String → Option α
  | [], _ => none
  | (k', v) :: rest, k => if k' = k then some v else find_assoc rest k

/-- Key update in an association list (C++ `map::operator[] =`):
overwrite the entry if the key is present, append it otherwise. -/
def set_assoc {α : Type} : List (String × α) → String → α → List (String × α)
  | [], k, v => [(k, v)]
  | (k', v') :: rest, k, v =>
    if k' = k then (k, v) :: rest else (k', v') :: set_assoc rest k v

/-- Lexicographic comparison of character lists by codepoint: the order
of C++ `std::string` (byte-wise) on the ASCII tokens this program
handles. -/
def chars_lt : List Char → List Char → Bool
  | [], [] => false
  | [], _ :: _ => true
  | _ :: _, [] => false
  | a :: as, b :: bs =>
    if a.toNat < b.toNat then true
    else if b.toNat < a.toNat then false
    else chars_lt as bs

/-- See `chars_lt`: the `std::map`/`std::set` key order on strings. -/
def str_lt (a b : String) : Bool :=
  chars_lt a.data b.data

/-- `get_variables` of `prover.cpp`: the `set<string>` of variable tokens
(VAR and UNRES) of a formula tree; the C++ iterates the set in sorted
order, so the embedding returns a sorted duplicate-free list. -/
def insert_sorted (s : String) : List String → List String
  | [] => [s]
  | x :: xs => if s = x then x :: xs else if str_lt s x then s :: x :: xs else x :: insert_sorted s xs

/-- See `insert_sorted`; the recursive collection of `get_variables`. -/
def get_variables : Node → List String
  | Node.prim _ => []
  | Node.var tok => [tok]
  | Node.unres tok => [tok]
  | Node.op1 c => get_variables c
  | Node.op2 _ l r => (get_variables r).foldl (fun acc v => insert_sorted v acc) (get_variables l)

/-- `trees_equal` of `prover.cpp`, with the repair described in the file
header (line 611 calls it with two arguments; the embedding supplies the
missing `resolutions` argument as a fresh empty map, as the author's own
two-argument wrapper of `trees_resolvable` does).  The function never
recurses: two OP nodes compare equal whenever their operator tokens
agree, regardless of their children.  Control paths that reach the end of
the C++ function body without a `return` (a VAR against an unbound UNRES,
an UNRES against an unbound VAR, an UNRES against anything other than a
VAR) have an undefined result, modelled as `none`. -/
def trees_equal (a b : Node) (resolutions : List (String × String)) : Option Bool :=
  match a, b with
  | Node.op1 _, Node.op1 _ => some true
  | Node.op1 _, Node.op2 _ _ _ => some false
  | Node.op2 _ _ _, Node.op1 _ => some false
  | Node.op2 ta _ _, Node.op2 tb _ _ => some (ta == tb)
  | Node.op1 _, _ => some false
  | Node.op2 _ _ _, _ => some false
  | Node.prim ta, Node.prim tb => some (ta == tb)
  | Node.prim _, _ => some false
  | Node.var ta, Node.var tb => some (ta == tb)
  | Node.var ta, Node.unres tb =>
    match find_assoc resolutions tb with
    | some r => some (ta == r)
    | none => none
  | Node.var _, _ => some false
  | Node.unres ta, Node.var tb =>
    match find_assoc resolutions ta with
    | some r => some (tb == r)
    | none => none
  | Node.unres _, _ => none

/-- `get_rule_replacements` of `prover.cpp` — the first-order matcher.
Walks the pattern `rule` against the subject `node`, binding pattern
variables in `scope`; returns the C++ boolean result together with the
scope as mutated at the point of return, or `none` when the undefined
result of `trees_equal` is consumed. -/
def get_rule_replacements (node rule : Node) (scope : Scope) : Option (Bool × Scope) :=
  match rule, node with
  | Node.op1 rc, Node.op1 nc => get_rule_replacements nc rc scope
  | Node.op1 _, _ => some (false, scope)
  | Node.op2 rtok rl rr, Node.op2 ntok nl nr =>
    if rtok = ntok then
      match get_rule_replacements nl rl scope with
      | none => none
      | some (false, scope1) => some (false, scope1)
      | some (true, scope1) => get_rule_replacements nr rr scope1
    else some (false, scope)
  | Node.op2 _ _ _, _ => some (false, scope)
  | Node.prim rtok, Node.prim ntok => some (rtok == ntok, scope)
  | Node.prim _, _ => some (false, scope)
  | Node.var rtok, _ =>
    match find_assoc scope rtok with
    | some bound =>
      match trees_equal bound node [] with
      | none => none
      | some b => some (b, scope)
    | none => some (true, set_assoc scope rtok node)
  | Node.unres rtok, _ =>
    match find_assoc scope rtok with
    | some bound =>
      match trees_equal bound node [] with
      | none => none
      | some b => some (b, scope)
    | none => some (true, set_assoc scope rtok node)

/-- Stands for the default-constructed C++ `Node` (empty token, type
`OP`, no children) that `map::operator[]` would produce on a missing key
in `replace_variables`; unreachable in this development because
`apply_transformation` populates every template variable. -/
def default_node : Node :=
  Node.op2 "" (Node.prim "") (Node.prim "")

/-- `replace_variables` of `prover.cpp` — the substituter's recursive
copy.  VAR leaves are replaced by their binding, PRIM leaves are copied,
OP nodes are copied recursively; any other node type (in particular
UNRES) is the `rerror`/`exit(1)` branch, modelled as `none`. -/
def replace_variables (node : Node) (scope : Scope) : Option Node :=
  match node with
  | Node.var tok => some ((find_assoc scope tok).getD default_node)
  | Node.prim tok => some (Node.prim tok)
  | Node.op1 c =>
    match replace_variables c scope with
    | none => none
    | some c' => some (Node.op1 c')
  | Node.op2 tok l r =>
    match replace_variables l scope with
    | none => none
    | some l' =>
      match replace_variables r scope with
      | none => none
      | some r' => some (Node.op2 tok l' r')
  | Node.unres _ => none

/-- The fresh-placeholder pre-pass of `apply_transformation`: every
variable of the target pattern that the match left unbound is bound to a
fresh UNRES node from the generator (the C++ iterates
`get_variables(rule_to)` in sorted order). -/
def extend_scope : List String → Scope → Nat → Scope × Nat
  | [], scope, gen => (scope, gen)
  | v :: rest, scope, gen =>
    match find_assoc scope v with
    | some _ => extend_scope rest scope gen
    | none =>
      let (nm, g') := next_name gen
      extend_scope rest (set_assoc scope v (Node.unres nm)) g'

/-- `apply_transformation` of `prover.cpp`: match `rule_from` against
`node`; on failure return `(none, gen)` (the C++ `ok = false`), on
success extend the binding with fresh placeholders and substitute into
`rule_to`.  The outer `none` is the abnormal outcome (undefined
`trees_equal` result, or the `exit(1)` branch of `replace_variables`). -/
def apply_transformation (node rule_from rule_to : Node) (gen : Nat) :
    Option (Option Node × Nat) :=
  match get_rule_replacements node rule_from [] with
  | none => none
  | some (false, _) => some (none, gen)
  | some (true, scope) =>
    let (scope', gen') := extend_scope (get_variables rule_to) scope gen
    match replace_variables rule_to scope' with
    | none => none
    | some t => some (some t, gen')

/-- `possible_next_trees_for_rule` of `prover.cpp`: all one-step rewrites
of `node` by the directed rule `rule_from ⇒ rule_to`, in emission order —
the root rewrite first, then for each child position in order the
rewrites inside that child, each lifted into a copy of `node` with the
untouched sibling kept by value.  The generator state threads through the
enumeration in the same order. -/
def possible_next_trees_for_rule (node : Node) (rule_name : String)
    (rule_from rule_to : Node) (gen : Nat) : Option (List (String × Node) × Nat) :=
  match apply_transformation node rule_from rule_to gen with
  | none => none
  | some (res, gen1) =>
    let possible : List (String × Node) :=
      match res with
      | some t => [(rule_name, t)]
      | none => []
    match node with
    | Node.op1 c =>
      match possible_next_trees_for_rule c rule_name rule_from rule_to gen1 with
      | none => none
      | some (sub, gen2) =>
        some (possible ++ sub.map (fun pr => (rule_name, Node.op1 pr.2)), gen2)
    | Node.op2 tok l r =>
      match possible_next_trees_for_rule l rule_name rule_from rule_to gen1 with
      | none => none
      | some (subl, gen2) =>
        match possible_next_trees_for_rule r rule_name rule_from rule_to gen2 with
        | none => none
        | some (subr, gen3) =>
          some (possible ++ subl.map (fun pr => (rule_name, Node.op2 tok pr.2 r))
                         ++ subr.map (fun pr => (rule_name, Node.op2 tok l pr.2)), gen3)
    | _ => some (possible, gen1)

/-- `possible_next_trees` of `prover.cpp`: for each axiom in declaration
order, the successors using direction A⇒B followed by the successors
using direction B⇒A. -/
def possible_next_trees (axioms : List Rule) (node : Node) (gen : Nat) :
    Option (List (String × Node) × Nat) :=
  match axioms with
  | [] => some ([], gen)
  | ax :: rest =>
    match possible_next_trees_for_rule node ax.name ax.rule_a ax.rule_b gen with
    | none => none
    | some (p1, gen1) =>
      match possible_next_trees_for_rule node ax.name ax.rule_b ax.rule_a gen1 with
      | none => none
      | some (p2, gen2) =>
        match possible_next_trees rest node gen2 with
        | none => none
        | some (p3, gen3) => some (p1 ++ p2 ++ p3, gen3)

/-- The per-obligation search state of `find_shortest_path`: the FIFO
frontier `Q` (front at the head), the visited set `vis` of canonical
keys, the parent map (key ↦ (axiom name, predecessor term)), the depth
map (key ↦ BFS depth), the fresh-name counter, and the `states`
counter. -/
structure SearchState where
  Q : List Node
  vis : List String
  parent : List (String × (String × Node))
  depth : List (String × Nat)
  gen : Nat
  states : Nat
deriving DecidableEq, Repr

/-- One expansion event of the search: the dequeued node together with
the successor list `possible_next_trees` produced for it. -/
abbrev TraceEvent : Type := Node × List (String × Node)

/-- The outcome of `find_shortest_path`.  `found`/`notFound` are the two
C++ return paths; both carry the function's local state at exit and the
list of expansion events, returned for specification purposes only.
`crashed` stands for an abnormal end of the process (an undefined
`trees_equal` result consumed, the `exit(1)` branch of
`replace_variables`, or a missing parent-map entry during path
reconstruction); `outOfFuel` means the modelled iteration budget ran out
while the C++ loop would have continued. -/
inductive SearchResult where
  | found (path : List (String × Node)) (st : SearchState) (tr : List TraceEvent)
  | notFound (st : SearchState) (tr : List TraceEvent)
  | crashed
  | outOfFuel (st : SearchState) (tr : List TraceEvent)
deriving DecidableEq, Repr

/-- The path-reconstruction loop of `find_shortest_path`: walk parent
links back from the matched node to the start key, collecting
(axiom name, node) pairs; the C++ collects them backwards and reverses.
A missing parent entry (impossible under the search invariants) and fuel
exhaustion are `none`. -/
def reconstruct (parent : List (String × (String × Node))) (hstart : String) :
    Nat → Node → Option (List (String × Node))
  | 0, _ => none
  | fuel + 1, cur =>
    if to_string cur = hstart then some []
    else
      match find_assoc parent (to_string cur) with
      | none => none
      | some (nm, prev) =>
        match reconstruct parent hstart fuel prev with
        | none => none
        | some p => some (p ++ [(nm, cur)])

/-- The successor loop of one BFS expansion: for each `(axiomName, v)` in
order, if `v`'s canonical key is unvisited, mark it visited, enqueue `v`,
and record its depth (predecessor's depth + 1) and parent entry. -/
def enqueue_successors (u : Node) (hu : String) (succs : List (String × Node))
    (st : SearchState) : SearchState :=
  succs.foldl
    (fun st pr =>
      let hv := to_string pr.2
      if hv ∈ st.vis then st
      else
        { st with
          vis := hv :: st.vis
          Q := st.Q ++ [pr.2]
          depth := (hv, (find_assoc st.depth hu).getD 0 + 1) :: st.depth
          parent := (hv, (pr.1, u)) :: st.parent })
    st

/-- The BFS loop of `find_shortest_path`, one fuel unit per iteration:
dequeue `u` (incrementing `states`); if its key is the target's,
reconstruct and return the path; else if its canonical text is longer
than `max_tree_size` or its recorded depth has reached `max_depth`, skip
expansion; else enumerate the successors, enqueue the unvisited ones and
record the expansion event. -/
def bfsRun (axioms : List Rule) (max_depth max_tree_size : Nat) (hstart htarget : String) :
    Nat → SearchState → List TraceEvent → SearchResult
  | 0, st, tr => SearchResult.outOfFuel st tr
  | fuel + 1, st, tr =>
    match st.Q with
    | [] => SearchResult.notFound st tr
    | u :: rest =>
      let st1 : SearchState := { st with Q := rest, states := st.states + 1 }
      let hu := to_string u
      if hu = htarget then
        match reconstruct st1.parent hstart (st1.depth.length + 1) u with
        | none => SearchResult.crashed
        | some path => SearchResult.found path st1 tr
      else if max_tree_size < hu.length ∨ max_depth ≤ (find_assoc st1.depth hu).getD 0 then
        bfsRun axioms max_depth max_tree_size hstart htarget fuel st1 tr
      else
        match possible_next_trees axioms u st1.gen with
        | none => SearchResult.crashed
        | some (succs, gen') =>
          bfsRun axioms max_depth max_tree_size hstart htarget fuel
            (enqueue_successors u hu succs { st1 with gen := gen' }) (tr ++ [(u, succs)])

/-- The initial search state of `find_shortest_path`: the frontier holds
the start term, whose key is visited; all maps empty, counter zero. -/
def init_state (start : Node) : SearchState :=
  { Q := [start]
    vis := [to_string start]
    parent := []
    depth := []
    gen := 0
    states := 0 }

/-- `find_shortest_path` of `prover.cpp` with an explicit iteration
budget. -/
def find_shortest_path (fuel : Nat) (axioms : List Rule) (start target : Node)
    (max_depth max_tree_size : Nat) : SearchResult :=
  bfsRun axioms max_depth max_tree_size (to_string start) (to_string target) fuel
    (init_state start) []

/-- The process-scoped configuration mutated by `param` commands, with
the defaults of `main`. -/
structure Config where
  max_search_depth : Nat := 8
  max_tree_size : Nat := 20
  use_proofs_as_axioms : Bool := false
deriving DecidableEq, Repr

/-- The transcript lines `main` prints for one `prove` command (stdout
only; the elapsed-seconds text is an opaque parameter).  Abnormal search
outcomes print nothing, since the process never reaches the printing
code. -/
def prove_output (elapsed : String) (start target : Node) (max_search_depth : Nat)
    (res : SearchResult) : List String :=
  ("Prove " ++ to_string start ++ " = " ++ to_string target ++ "...") ::
  (match res with
   | SearchResult.found path st _ =>
     if path.length = 0 then ["Statements are the same."]
     else to_string start ::
          path.map (fun pr => " = " ++ to_string pr.2 ++ "  w/ " ++ pr.1) ++
          ["Done in " ++ elapsed ++ " seconds after checking " ++
             toString st.states ++ " states."]
   | SearchResult.notFound st _ =>
     ["No path found within " ++ toString max_search_depth ++
        " steps after checking " ++ toString st.states ++ " states in " ++
        elapsed ++ " seconds."]
   | _ => [])

/-- The driver's handling of one `prove LHS = RHS .` command (`main`,
`cmd.type == PROVE`): run the search with the current axiom list and
bounds, print the transcript, and — exactly when the search succeeded and
`use_proofs_as_axioms` is set — append the synthetic axiom
`proof of <LHS> = <RHS>` with the obligation's patterns.  Returns the new
axiom list and the transcript. -/
def process_prove (fuel : Nat) (cfg : Config) (axioms : List Rule)
    (start target : Node) (elapsed : String) : List Rule × List String :=
  let res := find_shortest_path fuel axioms start target
    cfg.max_search_depth cfg.max_tree_size
  let lines := prove_output elapsed start target cfg.max_search_depth res
  let axioms' :=
    match res with
    | SearchResult.found _ _ _ =>
      if cfg.use_proofs_as_axioms then
        axioms ++ [{ name := "proof of " ++ to_string start ++ " = " ++ to_string target
                     rule_a := start
                     rule_b := target }]
      else axioms
    | _ => axioms
  (axioms', lines)

/-- A search outcome on which the C++ function actually returned (rather
than crashing or, in the model, running out of fuel). -/
def SearchResult.terminated : SearchResult → Bool
  | SearchResult.found _ _ _ => true
  | SearchResult.notFound _ _ => true
  | _ => false

/-- The C++ `ok` output flag of `find_shortest_path`. -/
def SearchResult.succeeded : SearchResult → Bool
  | SearchResult.found _ _ _ => true
  | _ => false

/-- The C++ `states` output of `find_shortest_path`: the counter
incremented once per dequeued node. -/
def SearchResult.statesOf : SearchResult → Nat
  | SearchResult.found _ st _ => st.states
  | SearchResult.notFound st _ => st.states
  | _ => 0

/-- The number of distinct canonical keys inserted into the visited set
during the search (every insertion into `vis` is of a key not yet
present). -/
def SearchResult.visitedCount : SearchResult → Nat
  | SearchResult.found _ st _ => st.vis.length
  | SearchResult.notFound st _ => st.vis.length
  | _ => 0

/-- The number of nodes still in the frontier when the search returned. -/
def SearchResult.frontierLen : SearchResult → Nat
  | SearchResult.found _ st _ => st.Q.length
  | SearchResult.notFound st _ => st.Q.length
  | _ => 0

/-- A term containing no UNRES node. -/
def no_unres : Node → Bool
  | Node.prim _ => true
  | Node.var _ => true
  | Node.unres _ => false
  | Node.op1 c => no_unres c
  | Node.op2 _ l r => no_unres l && no_unres r

/-- A variable token occurs in a term (as a VAR or UNRES leaf). -/
def occurs (v : String) : Node → Bool
  | Node.prim _ => false
  | Node.var tok => tok == v
  | Node.unres tok => tok == v
  | Node.op1 c => occurs v c
  | Node.op2 _ l r => occurs v l || occurs v r

/-- The substitution of §4.4 of the spec, stated in the spec's own words
for comparison with `replace_variables`: a post-order copy of the
template in which PRIM copies as-is, OP copies recursively, and pattern
variables are replaced by their binding (assumed present). -/
def spec_substitute (scope : Scope) : Node → Node
  | Node.prim tok => Node.prim tok
  | Node.var tok => (find_assoc scope tok).getD default_node
  | Node.unres tok => (find_assoc scope tok).getD default_node
  | Node.op1 c => Node.op1 (spec_substitute scope c)
  | Node.op2 tok l r => Node.op2 tok (spec_substitute scope l) (spec_substitute scope r)

/-- Subterm positions: the root, or a position inside the first or second
child. -/
inductive Pos where
  | here
  | inl (p : Pos)
  | inr (p : Pos)
deriving DecidableEq, Repr

/-- The pre-order position list of a term: root first, then the
positions inside child 0, then the positions inside child 1. -/
def positions : Node → List Pos
  | Node.prim _ => [Pos.here]
  | Node.var _ => [Pos.here]
  | Node.unres _ => [Pos.here]
  | Node.op1 c => Pos.here :: (positions c).map Pos.inl
  | Node.op2 _ l r =>
    Pos.here :: ((positions l).map Pos.inl ++ (positions r).map Pos.inr)

/-- The subterm of a term at a position. -/
def subterm_at : Node → Pos → Option Node
  | n, Pos.here => some n
  | Node.op1 c, Pos.inl p => subterm_at c p
  | Node.op2 _ l _, Pos.inl p => subterm_at l p
  | Node.op2 _ _ r, Pos.inr p => subterm_at r p
  | _, _ => none

/-- Replace the subterm at a position, keeping every untouched sibling by
value. -/
def replace_at : Node → Pos → Node → Option Node
  | _, Pos.here, x => some x
  | Node.op1 c, Pos.inl p, x => (replace_at c p x).map Node.op1
  | Node.op2 tok l r, Pos.inl p, x =>
    (replace_at l p x).map (fun l' => Node.op2 tok l' r)
  | Node.op2 tok l r, Pos.inr p, x =>
    (replace_at r p x).map (fun r' => Node.op2 tok l r')
  | _, _, _ => none

/-- The spec's `steps_everywhere` (§4.5), stated as a walk over an
explicit position list: at each position in order, attempt the directed
rule on the subterm there and, on success, emit the whole term with that
subterm replaced by the rewrite result. -/
def steps_at_positions (node : Node) (rule_name : String) (rule_from rule_to : Node) :
    List Pos → Nat → Option (List (String × Node) × Nat)
  | [], gen => some ([], gen)
  | p :: ps, gen =>
    match subterm_at node p with
    | none => none
    | some sub =>
      match apply_transformation sub rule_from rule_to gen with
      | none => none
      | some (res, gen1) =>
        match steps_at_positions node rule_name rule_from rule_to ps gen1 with
        | none => none
        | some (rest, gen2) =>
          match res with
          | none => some (rest, gen2)
          | some t' =>
            match replace_at node p t' with
            | none => none
            | some lifted => some ((rule_name, lifted) :: rest, gen2)

/-- The spec's `all_steps` (§4.5): for each axiom in declaration order,
the successors of direction A⇒B at every pre-order position, then those
of direction B⇒A. -/
def spec_all_steps : List Rule → Node → Nat → Option (List (String × Node) × Nat)
  | [], _, gen => some ([], gen)
  | ax :: rest, node, gen =>
    match steps_at_positions node ax.name ax.rule_a ax.rule_b (positions node) gen with
    | none => none
    | some (p1, gen1) =>
      match steps_at_positions node ax.name ax.rule_b ax.rule_a (positions node) gen1 with
      | none => none
      | some (p2, gen2) =>
        match spec_all_steps rest node gen2 with
        | none => none
        | some (p3, gen3) => some (p1 ++ p2 ++ p3, gen3)

/-- The depth recorded for a canonical key (C++ `depth[k]`, whose
`map::operator[]` read of an absent key yields 0). -/
def Dk (depth : List (String × Nat)) (k : String) : Nat :=
  (find_assoc depth k).getD 0

/-- An edge the engine enumerated during the search: some recorded
expansion event dequeued a node with canonical key `a` and produced among
its successors a term with canonical key `b`. -/
def trace_edge (tr : List TraceEvent) (a b : String) : Prop :=
  ∃ ev ∈ tr, to_string ev.1 = a ∧ ∃ pr ∈ ev.2, to_string pr.2 = b

/-- The invariants the BFS loop of `find_shortest_path` maintains,
stated over a search state (for a fixed start key `hstart`): depth-map
keys are distinct and never include the start key (whose depth reads as
0); a key is visited exactly when it has a recorded depth or is the
start; the recorded depths of the frontier are nondecreasing from front
to back; every frontier node is visited; every visited key's depth is at
most the front's depth plus one; every parent-map entry steps down one
depth level between visited keys; every visited key other than the start
has a parent entry; and every recorded depth is bounded by the size of
the depth map. -/
structure SearchInv (hstart : String) (st : SearchState) : Prop where
  depth_nodup : (st.depth.map Prod.fst).Nodup
  start_depth : find_assoc st.depth hstart = none
  vis_iff : ∀ k, k ∈ st.vis ↔ ((find_assoc st.depth k).isSome ∨ k = hstart)
  queue_sorted : (st.Q.map (fun v => Dk st.depth (to_string v))).Sorted (· ≤ ·)
  queue_vis : ∀ v ∈ st.Q, to_string v ∈ st.vis
  vis_le_front : ∀ u rest, st.Q = u :: rest →
    ∀ k ∈ st.vis, Dk st.depth k ≤ Dk st.depth (to_string u) + 1
  parent_prop : ∀ k nm p, (k, (nm, p)) ∈ st.parent →
    Dk st.depth k = Dk st.depth (to_string p) + 1 ∧ to_string p ∈ st.vis ∧ k ∈ st.vis
  vis_parent : ∀ k, k ∈ st.vis → k ≠ hstart → (find_assoc st.parent k).isSome
  depth_le : ∀ kd ∈ st.depth, kd.2 ≤ st.depth.length

/-- The intermediate invariant of the successor-enqueueing loop of one
BFS expansion, relative to the dequeued node `u` with recorded depth
`du` and the original visited set and depth map (`origVis`,
`origDepth`): the depth map grew by fresh keys of depth `du + 1`, the
frontier grew at the back by nodes of that depth, and all bookkeeping
invariants persist. -/
structure EnqInv (hstart : String) (u : Node) (du : Nat) (origQ : List Node)
    (origDepth : List (String × Nat)) (origVis : List String)
    (st : SearchState) : Prop where
  depth_ext : ∃ ext, st.depth = ext ++ origDepth ∧
    (∀ k, k ∈ ext.map Prod.fst → k ∉ origVis) ∧ (∀ kd ∈ ext, kd.2 = du + 1)
  depth_nodup : (st.depth.map Prod.fst).Nodup
  start_depth : find_assoc st.depth hstart = none
  vis_iff : ∀ k, k ∈ st.vis ↔ ((find_assoc st.depth k).isSome ∨ k = hstart)
  q_shape : ∃ news, st.Q = origQ ++ news ∧
    ∀ v ∈ news, Dk st.depth (to_string v) = du + 1 ∧ to_string v ∈ st.vis
  vis_bound : ∀ k ∈ st.vis, Dk st.depth k ≤ du + 1
  parent_prop : ∀ k nm p, (k, (nm, p)) ∈ st.parent →
    Dk st.depth k = Dk st.depth (to_string p) + 1 ∧ to_string p ∈ st.vis ∧ k ∈ st.vis
  vis_parent : ∀ k, k ∈ st.vis → k ≠ hstart → (find_assoc st.parent k).isSome
  depth_le : ∀ kd ∈ st.depth, kd.2 ≤ st.depth.length
  vis_mono : ∀ k ∈ origVis, k ∈ st.vis
  depth_pres : ∀ k ∈ origVis, find_assoc st.depth k = find_assoc origDepth k
  key_u : Dk st.depth (to_string u) = du

/-! Association-list lemmas used throughout. -/

theorem find_assoc_none_iff {α : Type} (l : List (String × α)) (k : String) :
    find_assoc l k = none ↔ k ∉ l.map Prod.fst := by
  induction l with
  | nil => simp [find_assoc]
  | cons hd tl ih =>
    obtain ⟨k', v⟩ := hd
    simp only [find_assoc, List.map_cons, List.mem_cons]
    by_cases h : k' = k
    · simp [h]
    · simp [h, ih, Ne.symm h]

theorem mem_of_find_assoc_some {α : Type} {l : List (String × α)} {k : String} {v : α}
    (h : find_assoc l k = some v) : (k, v) ∈ l := by
  induction l with
  | nil => simp [find_assoc] at h
  | cons hd tl ih =>
    obtain ⟨k', v'⟩ := hd
    simp only [find_assoc] at h
    by_cases hk : k' = k
    · simp [hk] at h
      simp [hk, h]
    · simp [hk] at h
      exact List.mem_cons_of_mem _ (ih h)

theorem find_assoc_set_self {α : Type} (l : List (String × α)) (k : String) (v : α) :
    find_assoc (set_assoc l k v) k = some v := by
  induction l with
  | nil => simp [set_assoc, find_assoc]
  | cons hd tl ih =>
    obtain ⟨k', v'⟩ := hd
    by_cases h : k' = k
    · simp [set_assoc, h, find_assoc]
    · simp [set_assoc, h, find_assoc, ih]

theorem find_assoc_set_other {α : Type} (l : List (String × α)) (k k' : String) (v : α)
    (h : k' ≠ k) : find_assoc (set_assoc l k v) k' = find_assoc l k' := by
  induction l with
  | nil => simp [set_assoc, find_assoc, Ne.symm h]
  | cons hd tl ih =>
    obtain ⟨k0, v0⟩ := hd
    by_cases h0 : k0 = k
    · subst h0
      simp [set_assoc, find_assoc, Ne.symm h]
    · simp only [set_assoc, h0, if_false, find_assoc]
      by_cases h1 : k0 = k'
      · simp [h1]
      · simp [h1, ih]

/-- C1 (code_bug evidence): at the failing input — subject
`(* (* 0 1) (* 1 0))`, pattern `(* a a)` — the matcher succeeds with
`a ↦ (* 0 1)` even though the previously bound subterm and the second
subject child have different canonical texts; the already-bound
comparison (`trees_equal`) compares only the root tokens of OP nodes and
never recurses into children. -/
theorem matcher_bound_variable_shallow_bug :
    get_rule_replacements
        (Node.op2 "*" (Node.op2 "*" (Node.prim "0") (Node.prim "1"))
                      (Node.op2 "*" (Node.prim "1") (Node.prim "0")))
        (Node.op2 "*" (Node.var "a") (Node.var "a")) [] =
      some (true, [("a", Node.op2 "*" (Node.prim "0") (Node.prim "1"))]) ∧
    to_string (Node.op2 "*" (Node.prim "0") (Node.prim "1")) ≠
      to_string (Node.op2 "*" (Node.prim "1") (Node.prim "0")) := by
  constructor
  · rfl
  · decide

/-- C2 (code_bug evidence): at the same failing input, the match of the
pattern `(* a a)` against `(* (* 0 1) (* 1 0))` yields the binding
`a ↦ (* 0 1)`, and substituting the pattern under that binding produces
`(* (* 0 1) (* 0 1))`, whose canonical text differs from the subject's —
match/substitute soundness fails on the code. -/
theorem match_substitute_unsound :
    get_rule_replacements
        (Node.op2 "*" (Node.op2 "*" (Node.prim "0") (Node.prim "1"))
                      (Node.op2 "*" (Node.prim "1") (Node.prim "0")))
        (Node.op2 "*" (Node.var "a") (Node.var "a")) [] =
      some (true, [("a", Node.op2 "*" (Node.prim "0") (Node.prim "1"))]) ∧
    replace_variables (Node.op2 "*" (Node.var "a") (Node.var "a"))
        [("a", Node.op2 "*" (Node.prim "0") (Node.prim "1"))] =
      some (Node.op2 "*" (Node.op2 "*" (Node.prim "0") (Node.prim "1"))
                         (Node.op2 "*" (Node.prim "0") (Node.prim "1"))) ∧
    to_string (Node.op2 "*" (Node.op2 "*" (Node.prim "0") (Node.prim "1"))
                            (Node.op2 "*" (Node.prim "0") (Node.prim "1"))) ≠
      to_string (Node.op2 "*" (Node.op2 "*" (Node.prim "0") (Node.prim "1"))
                              (Node.op2 "*" (Node.prim "1") (Node.prim "0"))) := by
  refine ⟨rfl, rfl, ?_⟩
  decide

/-- C6: when the start and target terms have equal canonical texts, the
search succeeds immediately with the empty path (the start node is
dequeued, matches the target key, and the reconstruction loop stops at
once), and the transcript of the prove command contains the line
`Statements are the same.`. -/
theorem equal_endpoints_zero_steps (fuel : Nat) (axioms : List Rule) (start target : Node)
    (md mts : Nat) (elapsed : String)
    (h : to_string start = to_string target) :
    find_shortest_path (fuel + 1) axioms start target md mts =
      SearchResult.found []
        { Q := [], vis := [to_string start], parent := [], depth := [], gen := 0, states := 1 }
        [] ∧
    "Statements are the same." ∈
      prove_output elapsed start target md
        (find_shortest_path (fuel + 1) axioms start target md mts) := by
  have hmain : find_shortest_path (fuel + 1) axioms start target md mts =
      SearchResult.found []
        { Q := [], vis := [to_string start], parent := [], depth := [], gen := 0, states := 1 }
        [] := by
    simp [find_shortest_path, bfsRun, init_state, reconstruct, h]
  refine ⟨hmain, ?_⟩
  rw [hmain]
  simp [prove_output]

/-- Witness for `equal_endpoints_zero_steps` at the concrete obligation
`prove 1 = 1.`. -/
theorem equal_endpoints_zero_steps_witness :
    to_string (Node.prim "1") = to_string (Node.prim "1") ∧
    (find_shortest_path 1 [] (Node.prim "1") (Node.prim "1") 8 20 =
      SearchResult.found []
        { Q := [], vis := [to_string (Node.prim "1")], parent := [], depth := [],
          gen := 0, states := 1 } [] ∧
    "Statements are the same." ∈
      prove_output "0.000" (Node.prim "1") (Node.prim "1") 8
        (find_shortest_path 1 [] (Node.prim "1") (Node.prim "1") 8 20)) :=
  ⟨rfl, equal_endpoints_zero_steps 0 [] (Node.prim "1") (Node.prim "1") 8 20 "0.000" rfl⟩

/-- C5 (counterexample): an UNRES pattern variable present in the Binding
is not replaced by its bound subterm — `replace_variables` reaches its
`rerror`/`exit(1)` branch on any UNRES template node, and the crash is
reachable through `apply_transformation` whenever a target pattern
mentions a variable the source pattern did not bind twice (the fresh
placeholder pre-pass inserts an UNRES binding, and a second substitution
through such a template aborts).  Here: the binding maps `?0` to `0`,
yet substituting the template `?0` aborts instead of returning `0`. -/
theorem substituter_unres_crash :
    find_assoc [("?0", Node.prim "0")] "?0" = some (Node.prim "0") ∧
    replace_variables (Node.unres "?0") [("?0", Node.prim "0")] = none ∧
    apply_transformation (Node.prim "0") (Node.var "x") (Node.unres "u") 0 = none :=
  ⟨rfl, rfl, rfl⟩

set_option maxRecDepth 100000 in
/-- C10 (counterexample): with the single axiom
`com_add : (+ a b) = (+ b a)`, proving
`(+ 0 (+ 0 1)) = (+ (+ 0 1) 0)` succeeds after dequeuing 2 states — the
reported count — while 3 distinct canonical keys were inserted into the
visited set (the successor `(+ 0 (+ 1 0))` is visited but still in the
frontier when the target is dequeued), so the reported `N` is not the
visited-set size. -/
theorem states_counter_mismatch :
    (find_shortest_path 10
        [{ name := "com_add",
           rule_a := Node.op2 "+" (Node.var "a") (Node.var "b"),
           rule_b := Node.op2 "+" (Node.var "b") (Node.var "a") }]
        (Node.op2 "+" (Node.prim "0") (Node.op2 "+" (Node.prim "0") (Node.prim "1")))
        (Node.op2 "+" (Node.op2 "+" (Node.prim "0") (Node.prim "1")) (Node.prim "0"))
        8 20).succeeded = true ∧
    (find_shortest_path 10
        [{ name := "com_add",
           rule_a := Node.op2 "+" (Node.var "a") (Node.var "b"),
           rule_b := Node.op2 "+" (Node.var "b") (Node.var "a") }]
        (Node.op2 "+" (Node.prim "0") (Node.op2 "+" (Node.prim "0") (Node.prim "1")))
        (Node.op2 "+" (Node.op2 "+" (Node.prim "0") (Node.prim "1")) (Node.prim "0"))
        8 20).statesOf = 2 ∧
    (find_shortest_path 10
        [{ name := "com_add",
           rule_a := Node.op2 "+" (Node.var "a") (Node.var "b"),
           rule_b := Node.op2 "+" (Node.var "b") (Node.var "a") }]
        (Node.op2 "+" (Node.prim "0") (Node.op2 "+" (Node.prim "0") (Node.prim "1")))
        (Node.op2 "+" (Node.op2 "+" (Node.prim "0") (Node.prim "1")) (Node.prim "0"))
        8 20).visitedCount = 3 := by
  refine ⟨?_, ?_, ?_⟩ <;> decide

theorem list_ne_append_singleton {α : Type} (l : List α) (x : α) : l ≠ l ++ [x] := by
  intro h
  have hlen := congrArg List.length h
  simp at hlen

/-- C8: after a `prove` command the axiom list is extended with the
synthetic axiom `proof of <printed LHS> = <printed RHS>` carrying the
obligation's patterns if and only if `use_proofs_as_axioms` is set and
the search succeeded; in every other (normally terminating) case the
axiom list is unchanged. -/
theorem prove_command_axiom_list_effect (fuel : Nat) (cfg : Config) (axioms : List Rule)
    (start target : Node) (elapsed : String)
    (h : (find_shortest_path fuel axioms start target
            cfg.max_search_depth cfg.max_tree_size).terminated = true) :
    ((process_prove fuel cfg axioms start target elapsed).1 =
        axioms ++ [{ name := "proof of " ++ to_string start ++ " = " ++ to_string target,
                     rule_a := start, rule_b := target }] ↔
      (cfg.use_proofs_as_axioms = true ∧
        (find_shortest_path fuel axioms start target
            cfg.max_search_depth cfg.max_tree_size).succeeded = true)) ∧
    (¬ (cfg.use_proofs_as_axioms = true ∧
          (find_shortest_path fuel axioms start target
              cfg.max_search_depth cfg.max_tree_size).succeeded = true) →
      (process_prove fuel cfg axioms start target elapsed).1 = axioms) := by
  cases hres : find_shortest_path fuel axioms start target
      cfg.max_search_depth cfg.max_tree_size with
  | found p st tr =>
    by_cases hf : cfg.use_proofs_as_axioms
    · simp [process_prove, hres, SearchResult.succeeded, hf]
    · simp only [process_prove, hres, SearchResult.succeeded, hf, if_false, Bool.false_eq_true,
        false_and, iff_false, not_false_eq_true, forall_const]
      refine ⟨list_ne_append_singleton _ _, ?_⟩
      trivial
  | notFound st tr =>
    simp only [process_prove, hres, SearchResult.succeeded, Bool.false_eq_true, and_false,
      iff_false, not_false_eq_true, forall_const]
    refine ⟨list_ne_append_singleton _ _, ?_⟩
    trivial
  | crashed => simp [hres, SearchResult.terminated] at h
  | outOfFuel st tr => simp [hres, SearchResult.terminated] at h

/-- Witness for `prove_command_axiom_list_effect` on the trivial
obligation `prove 1 = 1.` with the default configuration. -/
theorem prove_command_axiom_list_effect_witness :
    (find_shortest_path 1 [] (Node.prim "1") (Node.prim "1")
        (Config.mk 8 20 false).max_search_depth (Config.mk 8 20 false).max_tree_size).terminated
      = true ∧
    (((process_prove 1 (Config.mk 8 20 false) [] (Node.prim "1") (Node.prim "1") "0.000").1 =
        [] ++ [{ name := "proof of " ++ to_string (Node.prim "1") ++ " = " ++
                   to_string (Node.prim "1"),
                 rule_a := Node.prim "1", rule_b := Node.prim "1" }] ↔
      ((Config.mk 8 20 false).use_proofs_as_axioms = true ∧
        (find_shortest_path 1 [] (Node.prim "1") (Node.prim "1")
            (Config.mk 8 20 false).max_search_depth
            (Config.mk 8 20 false).max_tree_size).succeeded = true)) ∧
    (¬ ((Config.mk 8 20 false).use_proofs_as_axioms = true ∧
          (find_shortest_path 1 [] (Node.prim "1") (Node.prim "1")
              (Config.mk 8 20 false).max_search_depth
              (Config.mk 8 20 false).max_tree_size).succeeded = true) →
      (process_prove 1 (Config.mk 8 20 false) [] (Node.prim "1") (Node.prim "1") "0.000").1 =
        [])) :=
  ⟨by decide,
   prove_command_axiom_list_effect 1 (Config.mk 8 20 false) [] (Node.prim "1") (Node.prim "1")
     "0.000" (by decide)⟩

/-- C4: when the dequeued node's canonical text is longer than
`max_tree_size` or its recorded depth has reached `max_depth` (and it is
not the target), the iteration only removes it from the frontier and
increments the `states` counter: no successor is enumerated or enqueued,
no expansion event is recorded, and the visited set — which still holds
the node's key — the parent map, the depth map and the generator are
unchanged for the rest of the search. -/
theorem bound_violating_node_skipped (axioms : List Rule) (md mts : Nat)
    (hstart htarget : String) (fuel : Nat) (st : SearchState) (tr : List TraceEvent)
    (u : Node) (rest : List Node)
    (hq : st.Q = u :: rest)
    (hne : to_string u ≠ htarget)
    (hbound : mts < (to_string u).length ∨ md ≤ Dk st.depth (to_string u)) :
    bfsRun axioms md mts hstart htarget (fuel + 1) st tr =
      bfsRun axioms md mts hstart htarget fuel
        { Q := rest, vis := st.vis, parent := st.parent, depth := st.depth,
          gen := st.gen, states := st.states + 1 } tr ∧
    (to_string u ∈ st.vis →
      to_string u ∈
        ({ Q := rest, vis := st.vis, parent := st.parent, depth := st.depth,
           gen := st.gen, states := st.states + 1 } : SearchState).vis) := by
  obtain ⟨Q, vis, parent, depth, gen, states⟩ := st
  simp only at hq
  subst hq
  refine ⟨?_, fun h => h⟩
  simp only [Dk] at hbound
  simp only [bfsRun, if_neg hne, if_pos hbound]

/-- Witness for `bound_violating_node_skipped`: a frontier holding `1`
with `max_depth = 0`, so the recorded depth 0 already violates the
bound. -/
theorem bound_violating_node_skipped_witness :
    ({ Q := [Node.prim "1"], vis := ["1"], parent := [], depth := [], gen := 0,
       states := 0 } : SearchState).Q = [Node.prim "1"] ∧
    to_string (Node.prim "1") ≠ "x" ∧
    (20 < (to_string (Node.prim "1")).length ∨
      0 ≤ Dk ({ Q := [Node.prim "1"], vis := ["1"], parent := [], depth := [],
                gen := 0, states := 0 } : SearchState).depth (to_string (Node.prim "1"))) ∧
    (bfsRun [] 0 20 "1" "x" 1
        { Q := [Node.prim "1"], vis := ["1"], parent := [], depth := [], gen := 0,
          states := 0 } [] =
      bfsRun [] 0 20 "1" "x" 0
        { Q := [], vis := ["1"], parent := [], depth := [], gen := 0, states := 0 + 1 } [] ∧
    (to_string (Node.prim "1") ∈
        (["1"] : List String) →
      to_string (Node.prim "1") ∈
        ({ Q := [], vis := ["1"], parent := [], depth := [], gen := 0,
           states := 0 + 1 } : SearchState).vis)) :=
  ⟨rfl, by decide, Or.inr (Nat.zero_le _),
   bound_violating_node_skipped [] 0 20 "1" "x" 0
     { Q := [Node.prim "1"], vis := ["1"], parent := [], depth := [], gen := 0, states := 0 }
     [] (Node.prim "1") [] rfl (by decide) (Or.inr (Nat.zero_le _))⟩

theorem extend_scope_monotone (vars : List String) (scope : Scope) (gen : Nat)
    (v : String) (nv : Node) (h : find_assoc scope v = some nv) :
    find_assoc (extend_scope vars scope gen).1 v = some nv := by
  induction vars generalizing scope gen with
  | nil => exact h
  | cons v' rest ih =>
    simp only [extend_scope]
    cases hfind : find_assoc scope v' with
    | some _ => exact ih scope gen h
    | none =>
      simp only [next_name]
      apply ih
      have hne : v ≠ v' := by
        intro he
        rw [he, hfind] at h
        exact Option.noConfusion h
      rw [find_assoc_set_other _ _ _ _ hne]
      exact h

theorem extend_scope_gen_le (vars : List String) (scope : Scope) (gen : Nat) :
    gen ≤ (extend_scope vars scope gen).2 := by
  induction vars generalizing scope gen with
  | nil => exact Nat.le_refl _
  | cons v' rest ih =>
    simp only [extend_scope]
    cases hfind : find_assoc scope v' with
    | some _ => exact ih scope gen
    | none =>
      simp only [next_name]
      exact Nat.le_trans (Nat.le_succ _) (ih _ _)

theorem extend_scope_fresh :
    ∀ (vars : List String) (scope : Scope) (gen : Nat) (v : String),
      v ∈ vars → find_assoc scope v = none →
      ∃ i, gen ≤ i ∧ i < (extend_scope vars scope gen).2 ∧
        find_assoc (extend_scope vars scope gen).1 v =
          some (Node.unres ("?" ++ toString i)) := by
  intro vars
  induction vars with
  | nil =>
    intro scope gen v hv _
    cases hv
  | cons v' rest ih =>
    intro scope gen v hv h
    simp only [extend_scope]
    by_cases he : v = v'
    · subst he
      rw [h]
      simp only [next_name]
      refine ⟨gen, Nat.le_refl _, ?_, ?_⟩
      · exact Nat.lt_of_lt_of_le (Nat.lt_succ_self _) (extend_scope_gen_le _ _ _)
      · exact extend_scope_monotone _ _ _ _ _ (find_assoc_set_self _ _ _)
    · have hv' : v ∈ rest := by
        cases List.mem_cons.mp hv with
        | inl h0 => exact absurd h0 he
        | inr h0 => exact h0
      cases hfind : find_assoc scope v' with
      | some _ => exact ih scope gen v hv' h
      | none =>
        simp only [next_name]
        have h2 : find_assoc (set_assoc scope v' (Node.unres ("?" ++ toString gen))) v = none := by
          rw [find_assoc_set_other _ _ _ _ he]
          exact h
        obtain ⟨i, hi1, hi2, hi3⟩ := ih _ (gen + 1) v hv' h2
        exact ⟨i, Nat.le_trans (Nat.le_succ _) hi1, hi2, hi3⟩

theorem replace_variables_unres_free (t : Node) (scope : Scope)
    (h : no_unres t = true) :
    replace_variables t scope = some (spec_substitute scope t) := by
  induction t with
  | prim tok => rfl
  | var tok => rfl
  | unres tok => exact absurd h (by simp [no_unres])
  | op1 c ih =>
    simp only [no_unres] at h
    simp only [replace_variables, ih h, spec_substitute]
  | op2 tok l r ihl ihr =>
    simp only [no_unres, Bool.and_eq_true] at h
    simp only [replace_variables, ihl h.1, ihr h.2, spec_substitute]

/-- C5 (amended): on a template free of UNRES nodes, the substituter
produces exactly the spec's post-order copy — PRIM as-is, OP recursively,
pattern variables replaced through the (fresh-placeholder extended)
binding; the extension leaves every existing binding untouched and binds
every template variable absent from the original Binding to a fresh
UNRES node `?i` whose index the generator produced during this call. -/
theorem substituter_correct_on_unres_free_templates (template : Node) (scope : Scope)
    (gen : Nat) (h : no_unres template = true) :
    replace_variables template (extend_scope (get_variables template) scope gen).1 =
      some (spec_substitute (extend_scope (get_variables template) scope gen).1 template) ∧
    (∀ v nv, find_assoc scope v = some nv →
      find_assoc (extend_scope (get_variables template) scope gen).1 v = some nv) ∧
    (∀ v, v ∈ get_variables template → find_assoc scope v = none →
      ∃ i, gen ≤ i ∧ i < (extend_scope (get_variables template) scope gen).2 ∧
        find_assoc (extend_scope (get_variables template) scope gen).1 v =
          some (Node.unres ("?" ++ toString i))) :=
  ⟨replace_variables_unres_free _ _ h,
   fun v nv hv => extend_scope_monotone _ _ _ v nv hv,
   fun v hv hnone => extend_scope_fresh _ _ _ v hv hnone⟩

/-- Witness for `substituter_correct_on_unres_free_templates` at the
template `(+ a b)` with `a` bound to `0` and `b` unbound. -/
theorem substituter_correct_witness :
    no_unres (Node.op2 "+" (Node.var "a") (Node.var "b")) = true ∧
    (replace_variables (Node.op2 "+" (Node.var "a") (Node.var "b"))
        (extend_scope (get_variables (Node.op2 "+" (Node.var "a") (Node.var "b")))
          [("a", Node.prim "0")] 0).1 =
      some (spec_substitute
        (extend_scope (get_variables (Node.op2 "+" (Node.var "a") (Node.var "b")))
          [("a", Node.prim "0")] 0).1
        (Node.op2 "+" (Node.var "a") (Node.var "b")))) ∧
    (∀ v nv, find_assoc [("a", Node.prim "0")] v = some nv →
      find_assoc
        (extend_scope (get_variables (Node.op2 "+" (Node.var "a") (Node.var "b")))
          [("a", Node.prim "0")] 0).1 v = some nv) ∧
    (∀ v, v ∈ get_variables (Node.op2 "+" (Node.var "a") (Node.var "b")) →
      find_assoc [("a", Node.prim "0")] v = none →
      ∃ i, 0 ≤ i ∧
        i < (extend_scope (get_variables (Node.op2 "+" (Node.var "a") (Node.var "b")))
              [("a", Node.prim "0")] 0).2 ∧
        find_assoc
          (extend_scope (get_variables (Node.op2 "+" (Node.var "a") (Node.var "b")))
            [("a", Node.prim "0")] 0).1 v = some (Node.unres ("?" ++ toString i))) :=
  ⟨rfl, substituter_correct_on_unres_free_templates
    (Node.op2 "+" (Node.var "a") (Node.var "b")) [("a", Node.prim "0")] 0 rfl⟩

theorem steps_at_positions_append (node : Node) (nm : String) (rf rt : Node)
    (ps1 ps2 : List Pos) (gen : Nat) :
    steps_at_positions node nm rf rt (ps1 ++ ps2) gen =
      match steps_at_positions node nm rf rt ps1 gen with
      | none => none
      | some (l1, g1) =>
        match steps_at_positions node nm rf rt ps2 g1 with
        | none => none
        | some (l2, g2) => some (l1 ++ l2, g2) := by
  induction ps1 generalizing gen with
  | nil =>
    simp only [List.nil_append, steps_at_positions]
    cases steps_at_positions node nm rf rt ps2 gen with
    | none => rfl
    | some pr => rfl
  | cons p ps ih =>
    simp only [List.cons_append, steps_at_positions]
    cases hsub : subterm_at node p with
    | none => rfl
    | some sub =>
      dsimp only
      cases happ : apply_transformation sub rf rt gen with
      | none => rfl
      | some pr =>
        obtain ⟨res, g1⟩ := pr
        dsimp only
        simp only [List.append_eq]
        rw [ih g1]
        cases hsteps : steps_at_positions node nm rf rt ps g1 with
        | none => rfl
        | some pr2 =>
          obtain ⟨l1, g2⟩ := pr2
          dsimp only
          cases res with
          | none =>
            dsimp only
            cases hsteps2 : steps_at_positions node nm rf rt ps2 g2 with
            | none => rfl
            | some pr3 => rfl
          | some t' =>
            dsimp only
            cases hrep : replace_at node p t' with
            | none =>
              dsimp only
              cases hsteps2 : steps_at_positions node nm rf rt ps2 g2 with
              | none => rfl
              | some pr3 => rfl
            | some lifted =>
              dsimp only
              cases hsteps2 : steps_at_positions node nm rf rt ps2 g2 with
              | none => rfl
              | some pr3 =>
                obtain ⟨l2, g3⟩ := pr3
                simp

theorem steps_at_positions_inl_op1 (c : Node) (nm : String) (rf rt : Node)
    (ps : List Pos) (gen : Nat) :
    steps_at_positions (Node.op1 c) nm rf rt (ps.map Pos.inl) gen =
      match steps_at_positions c nm rf rt ps gen with
      | none => none
      | some (lst, g2) => some (lst.map (fun pr => (nm, Node.op1 pr.2)), g2) := by
  induction ps generalizing gen with
  | nil => rfl
  | cons p ps ih =>
    simp only [List.map_cons, steps_at_positions, subterm_at]
    cases hsub : subterm_at c p with
    | none => rfl
    | some sub =>
      dsimp only
      cases happ : apply_transformation sub rf rt gen with
      | none => rfl
      | some pr =>
        obtain ⟨res, g1⟩ := pr
        dsimp only
        rw [ih g1]
        cases hsteps : steps_at_positions c nm rf rt ps g1 with
        | none => rfl
        | some pr2 =>
          obtain ⟨lst, g2⟩ := pr2
          dsimp only
          cases res with
          | none => rfl
          | some t' =>
            simp only [replace_at]
            cases hrep : replace_at c p t' with
            | none => rfl
            | some lifted => simp

theorem steps_at_positions_inl_op2 (tok : String) (l r : Node) (nm : String) (rf rt : Node)
    (ps : List Pos) (gen : Nat) :
    steps_at_positions (Node.op2 tok l r) nm rf rt (ps.map Pos.inl) gen =
      match steps_at_positions l nm rf rt ps gen with
      | none => none
      | some (lst, g2) => some (lst.map (fun pr => (nm, Node.op2 tok pr.2 r)), g2) := by
  induction ps generalizing gen with
  | nil => rfl
  | cons p ps ih =>
    simp only [List.map_cons, steps_at_positions, subterm_at]
    cases hsub : subterm_at l p with
    | none => rfl
    | some sub =>
      dsimp only
      cases happ : apply_transformation sub rf rt gen with
      | none => rfl
      | some pr =>
        obtain ⟨res, g1⟩ := pr
        dsimp only
        rw [ih g1]
        cases hsteps : steps_at_positions l nm rf rt ps g1 with
        | none => rfl
        | some pr2 =>
          obtain ⟨lst, g2⟩ := pr2
          dsimp only
          cases res with
          | none => rfl
          | some t' =>
            simp only [replace_at]
            cases hrep : replace_at l p t' with
            | none => rfl
            | some lifted => simp

theorem steps_at_positions_inr_op2 (tok : String) (l r : Node) (nm : String) (rf rt : Node)
    (ps : List Pos) (gen : Nat) :
    steps_at_positions (Node.op2 tok l r) nm rf rt (ps.map Pos.inr) gen =
      match steps_at_positions r nm rf rt ps gen with
      | none => none
      | some (lst, g2) => some (lst.map (fun pr => (nm, Node.op2 tok l pr.2)), g2) := by
  induction ps generalizing gen with
  | nil => rfl
  | cons p ps ih =>
    simp only [List.map_cons, steps_at_positions, subterm_at]
    cases hsub : subterm_at r p with
    | none => rfl
    | some sub =>
      dsimp only
      cases happ : apply_transformation sub rf rt gen with
      | none => rfl
      | some pr =>
        obtain ⟨res, g1⟩ := pr
        dsimp only
        rw [ih g1]
        cases hsteps : steps_at_positions r nm rf rt ps g1 with
        | none => rfl
        | some pr2 =>
          obtain ⟨lst, g2⟩ := pr2
          dsimp only
          cases res with
          | none => rfl
          | some t' =>
            simp only [replace_at]
            cases hrep : replace_at r p t' with
            | none => rfl
            | some lifted => simp

theorem possible_next_trees_for_rule_eq (node : Node) (nm : String) (rf rt : Node) :
    ∀ gen : Nat,
      possible_next_trees_for_rule node nm rf rt gen =
        steps_at_positions node nm rf rt (positions node) gen := by
  induction node with
  | prim tok =>
    intro gen
    simp only [possible_next_trees_for_rule, positions, steps_at_positions, subterm_at]
    cases happ : apply_transformation (Node.prim tok) rf rt gen with
    | none => rfl
    | some pr =>
      obtain ⟨res, g1⟩ := pr
      dsimp only
      cases res with
      | none => rfl
      | some t' => rfl
  | var tok =>
    intro gen
    simp only [possible_next_trees_for_rule, positions, steps_at_positions, subterm_at]
    cases happ : apply_transformation (Node.var tok) rf rt gen with
    | none => rfl
    | some pr =>
      obtain ⟨res, g1⟩ := pr
      dsimp only
      cases res with
      | none => rfl
      | some t' => rfl
  | unres tok =>
    intro gen
    simp only [possible_next_trees_for_rule, positions, steps_at_positions, subterm_at]
    cases happ : apply_transformation (Node.unres tok) rf rt gen with
    | none => rfl
    | some pr =>
      obtain ⟨res, g1⟩ := pr
      dsimp only
      cases res with
      | none => rfl
      | some t' => rfl
  | op1 c ih =>
    intro gen
    rw [possible_next_trees_for_rule]
    simp only [positions, steps_at_positions, subterm_at]
    cases happ : apply_transformation (Node.op1 c) rf rt gen with
    | none => rfl
    | some pr =>
      obtain ⟨res, g1⟩ := pr
      dsimp only
      rw [steps_at_positions_inl_op1, ← ih g1]
      cases hsub : possible_next_trees_for_rule c nm rf rt g1 with
      | none =>
        cases res with
        | none => rfl
        | some t' => rfl
      | some pr2 =>
        obtain ⟨lst, g2⟩ := pr2
        dsimp only
        cases res with
        | none => simp
        | some t' =>
          simp only [replace_at]
          simp
  | op2 tok l r ihl ihr =>
    intro gen
    rw [possible_next_trees_for_rule]
    simp only [positions, steps_at_positions, subterm_at]
    cases happ : apply_transformation (Node.op2 tok l r) rf rt gen with
    | none => rfl
    | some pr =>
      obtain ⟨res, g1⟩ := pr
      dsimp only
      rw [steps_at_positions_append, steps_at_positions_inl_op2, ← ihl g1]
      cases hsubl : possible_next_trees_for_rule l nm rf rt g1 with
      | none =>
        cases res with
        | none => rfl
        | some t' => rfl
      | some pr2 =>
        obtain ⟨lstl, g2⟩ := pr2
        dsimp only
        rw [steps_at_positions_inr_op2, ← ihr g2]
        cases hsubr : possible_next_trees_for_rule r nm rf rt g2 with
        | none =>
          cases res with
          | none => rfl
          | some t' => rfl
        | some pr3 =>
          obtain ⟨lstr, g3⟩ := pr3
          dsimp only
          cases res with
          | none => simp
          | some t' =>
            simp only [replace_at]
            simp

/-- C7: the successor enumeration is deterministic (it is a pure
function of the axiom list, the subject and the generator) and emits, for
each axiom in declaration order, all successors of direction A⇒B before
all successors of direction B⇒A; within one direction the successors
appear in the pre-order position walk of the subject — the root rewrite
first, then the rewrites inside child 0, then those inside child 1, each
lifted with the untouched sibling kept by value: `possible_next_trees`
coincides with the spec-worded enumeration `spec_all_steps` over
`positions`. -/
theorem successor_enumeration_order (axioms : List Rule) (node : Node) :
    ∀ gen : Nat, possible_next_trees axioms node gen = spec_all_steps axioms node gen := by
  induction axioms with
  | nil => intro gen; rfl
  | cons ax rest ih =>
    intro gen
    simp only [possible_next_trees, spec_all_steps, ← possible_next_trees_for_rule_eq]
    cases h1 : possible_next_trees_for_rule node ax.name ax.rule_a ax.rule_b gen with
    | none => rfl
    | some pr1 =>
      obtain ⟨p1, gen1⟩ := pr1
      dsimp only
      cases h2 : possible_next_trees_for_rule node ax.name ax.rule_b ax.rule_a gen1 with
      | none => rfl
      | some pr2 =>
        obtain ⟨p2, gen2⟩ := pr2
        dsimp only
        rw [← ih gen2]

theorem parse_formula_fuel_wf :
    ∀ (fuel : Nat) (toks : List String) (t : Node) (rest : List String),
      parse_formula_fuel fuel toks = some (t, rest) → wf t = true := by
  intro fuel
  induction fuel with
  | zero =>
    intro toks t rest h
    simp [parse_formula_fuel] at h
  | succ fuel ih =>
    intro toks t rest h
    cases toks with
    | nil => simp [parse_formula_fuel] at h
    | cons tok rest0 =>
      simp only [parse_formula_fuel] at h
      by_cases h1 : tok = "("
      · simp only [h1, if_true] at h
        cases rest0 with
        | nil => simp at h
        | cons tok2 rest2 =>
          by_cases h2 : is_uop_token tok2 = true
          · simp only [h2, if_true] at h
            cases hc : parse_formula_fuel fuel rest2 with
            | none => rw [hc] at h; simp at h
            | some pr =>
              obtain ⟨c, rest3⟩ := pr
              rw [hc] at h
              dsimp only at h
              cases rest3 with
              | nil => simp at h
              | cons close rest4 =>
                by_cases h3 : close = ")"
                · simp only [h3, if_true] at h
                  rw [Option.some.injEq, Prod.mk.injEq] at h
                  obtain ⟨ht, -⟩ := h
                  subst ht
                  simpa [wf] using ih rest2 c (close :: rest4) hc
                · simp [h3] at h
          · simp only [Bool.not_eq_true] at h2
            simp only [h2, Bool.false_eq_true, if_false] at h
            by_cases h3 : is_bop_token tok2 = true
            · simp only [h3, if_true] at h
              cases hl : parse_formula_fuel fuel rest2 with
              | none => rw [hl] at h; simp at h
              | some prl =>
                obtain ⟨l, rest3⟩ := prl
                rw [hl] at h
                dsimp only at h
                cases hr : parse_formula_fuel fuel rest3 with
                | none => rw [hr] at h; simp at h
                | some prr =>
                  obtain ⟨r, rest4⟩ := prr
                  rw [hr] at h
                  dsimp only at h
                  cases rest4 with
                  | nil => simp at h
                  | cons close rest5 =>
                    by_cases h4 : close = ")"
                    · simp only [h4, if_true] at h
                      rw [Option.some.injEq, Prod.mk.injEq] at h
                      obtain ⟨ht, -⟩ := h
                      subst ht
                      have hwl := ih rest2 l rest3 hl
                      have hwr := ih rest3 r (close :: rest5) hr
                      simp [wf, h3, hwl, hwr]
                    · simp [h4] at h
            · simp only [Bool.not_eq_true] at h3
              simp [h3] at h
      · simp only [h1, if_false] at h
        by_cases h2 : is_prim_token tok = true
        · simp only [h2, if_true] at h
          rw [Option.some.injEq, Prod.mk.injEq] at h
          obtain ⟨ht, -⟩ := h
          subst ht
          simpa [wf] using h2
        · simp only [Bool.not_eq_true] at h2
          simp only [h2, Bool.false_eq_true, if_false] at h
          by_cases h3 : is_id_token tok = true
          · simp only [h3, if_true] at h
            rw [Option.some.injEq, Prod.mk.injEq] at h
            obtain ⟨ht, -⟩ := h
            subst ht
            simpa [wf] using h3
          · simp only [Bool.not_eq_true] at h3
            simp [h3] at h

theorem is_id_token_not_paren_not_prim (tok : String) (h : is_id_token tok = true) :
    tok ≠ "(" ∧ is_prim_token tok = false := by
  constructor
  · intro he
    subst he
    exact absurd h (by decide)
  · by_cases hp : is_prim_token tok = true
    · have : tok = "0" ∨ tok = "1" := by simpa [is_prim_token] using hp
      cases this with
      | inl h0 => subst h0; exact absurd h (by decide)
      | inr h0 => subst h0; exact absurd h (by decide)
    · simpa using hp

theorem is_bop_token_facts (tok : String) (h : is_bop_token tok = true) :
    is_uop_token tok = false := by
  have : tok = "*" ∨ tok = "+" := by simpa [is_bop_token] using h
  cases this with
  | inl h0 => subst h0; decide
  | inr h0 => subst h0; decide

theorem parse_formula_fuel_var_step (f : Nat) (tok : String) (rest : List String)
    (h1 : tok ≠ "(") (h2 : is_prim_token tok = false) (h3 : is_id_token tok = true) :
    parse_formula_fuel (f + 1) (tok :: rest) = some (Node.var tok, rest) := by
  simp [parse_formula_fuel, h1, h2, h3]

theorem parse_formula_fuel_uop_step (f : Nat) (L : List String) :
    parse_formula_fuel (f + 1) ("(" :: "~" :: L) =
      match parse_formula_fuel f L with
      | none => none
      | some (c, rest3) =>
        match rest3 with
        | [] => none
        | close :: rest4 => if close = ")" then some (Node.op1 c, rest4) else none := rfl

theorem parse_formula_fuel_bop_step (f : Nat) (tok2 : String) (L : List String)
    (h1 : is_uop_token tok2 = false) (h2 : is_bop_token tok2 = true) :
    parse_formula_fuel (f + 1) ("(" :: tok2 :: L) =
      match parse_formula_fuel f L with
      | none => none
      | some (l, rest3) =>
        match parse_formula_fuel f rest3 with
        | none => none
        | some (r, rest4) =>
          match rest4 with
          | [] => none
          | close :: rest5 =>
            if close = ")" then some (Node.op2 tok2 l r, rest5) else none := by
  simp [parse_formula_fuel, h1, h2]

theorem parse_formula_fuel_canonical :
    ∀ (t : Node), wf t = true → ∀ (fuel : Nat) (rest : List String),
      (canonical_tokens t).length ≤ fuel →
      parse_formula_fuel fuel (canonical_tokens t ++ rest) = some (t, rest) := by
  intro t
  induction t with
  | prim tok =>
    intro hwf fuel rest hfuel
    cases fuel with
    | zero => simp [canonical_tokens] at hfuel
    | succ f =>
      have : tok = "0" ∨ tok = "1" := by simpa [wf, is_prim_token] using hwf
      cases this with
      | inl h0 => subst h0; rfl
      | inr h0 => subst h0; rfl
  | var tok =>
    intro hwf fuel rest hfuel
    cases fuel with
    | zero => simp [canonical_tokens] at hfuel
    | succ f =>
      have hid : is_id_token tok = true := by simpa [wf] using hwf
      obtain ⟨hne, hprim⟩ := is_id_token_not_paren_not_prim tok hid
      simp only [canonical_tokens, List.singleton_append]
      exact parse_formula_fuel_var_step f tok rest hne hprim hid
  | unres tok =>
    intro hwf
    simp [wf] at hwf
  | op1 c ih =>
    intro hwf fuel rest hfuel
    cases fuel with
    | zero => simp [canonical_tokens] at hfuel
    | succ f =>
      have hbound : (canonical_tokens c).length ≤ f := by
        simp [canonical_tokens] at hfuel
        omega
      have hwc : wf c = true := by simpa [wf] using hwf
      have hlist : canonical_tokens (Node.op1 c) ++ rest =
          "(" :: "~" :: (canonical_tokens c ++ (")" :: rest)) := by
        simp [canonical_tokens]
      rw [hlist, parse_formula_fuel_uop_step]
      rw [ih hwc f (")" :: rest) hbound]
      dsimp only
      rw [if_pos rfl]
  | op2 tok l r ihl ihr =>
    intro hwf fuel rest hfuel
    cases fuel with
    | zero => simp [canonical_tokens] at hfuel
    | succ f =>
      have hwfs : (is_bop_token tok = true ∧ wf l = true) ∧ wf r = true := by
        simpa [wf, Bool.and_eq_true] using hwf
      obtain ⟨⟨hbop, hwl⟩, hwr⟩ := hwfs
      have hboundl : (canonical_tokens l).length ≤ f := by
        simp [canonical_tokens] at hfuel
        omega
      have hboundr : (canonical_tokens r).length ≤ f := by
        simp [canonical_tokens] at hfuel
        omega
      have hlist : canonical_tokens (Node.op2 tok l r) ++ rest =
          "(" :: tok :: (canonical_tokens l ++ (canonical_tokens r ++ (")" :: rest))) := by
        simp [canonical_tokens]
      rw [hlist, parse_formula_fuel_bop_step f tok _ (is_bop_token_facts tok hbop) hbop]
      rw [ihl hwl f (canonical_tokens r ++ (")" :: rest)) hboundl]
      dsimp only
      rw [ihr hwr f (")" :: rest) hboundr]
      dsimp only
      rw [if_pos rfl]

theorem word_char_not_whitespace (c : Char) (h : is_word_char c = true) :
    c.isWhitespace = false := by
  rcases eq_or_ne c ' ' with rfl | n1
  · exact absurd h (by decide)
  rcases eq_or_ne c '\t' with rfl | n2
  · exact absurd h (by decide)
  rcases eq_or_ne c '\r' with rfl | n3
  · exact absurd h (by decide)
  rcases eq_or_ne c '\n' with rfl | n4
  · exact absurd h (by decide)
  simp [Char.isWhitespace, n1, n2, n3, n4]

theorem word_char_not_single (c : Char) (h : is_word_char c = true) :
    is_single_char_token c = false := by
  rcases eq_or_ne c '*' with rfl | n1
  · exact absurd h (by decide)
  rcases eq_or_ne c '+' with rfl | n2
  · exact absurd h (by decide)
  rcases eq_or_ne c '~' with rfl | n3
  · exact absurd h (by decide)
  rcases eq_or_ne c '=' with rfl | n4
  · exact absurd h (by decide)
  rcases eq_or_ne c ':' with rfl | n5
  · exact absurd h (by decide)
  rcases eq_or_ne c '(' with rfl | n6
  · exact absurd h (by decide)
  rcases eq_or_ne c ')' with rfl | n7
  · exact absurd h (by decide)
  rcases eq_or_ne c '.' with rfl | n8
  · exact absurd h (by decide)
  simp [is_single_char_token, n1, n2, n3, n4, n5, n6, n7, n8]

theorem boundary_not_word (s : List Char)
    (hs : s = [] ∨ (∃ s', s = ' ' :: s') ∨ (∃ s', s = ')' :: s')) :
    s.takeWhile is_word_char = [] ∧ s.dropWhile is_word_char = s := by
  rcases hs with rfl | ⟨s', rfl⟩ | ⟨s', rfl⟩
  · simp
  · simp [List.takeWhile_cons, List.dropWhile_cons,
      (by decide : is_word_char ' ' = false)]
  · simp [List.takeWhile_cons, List.dropWhile_cons,
      (by decide : is_word_char ')' = false)]

theorem takeWhile_word_append (w s : List Char) (hw : ∀ c ∈ w, is_word_char c = true)
    (hs : s = [] ∨ (∃ s', s = ' ' :: s') ∨ (∃ s', s = ')' :: s')) :
    (w ++ s).takeWhile is_word_char = w ∧ (w ++ s).dropWhile is_word_char = s := by
  induction w with
  | nil =>
    simpa using boundary_not_word s hs
  | cons c cs ih =>
    have hc : is_word_char c = true := hw c (List.mem_cons_self c cs)
    have ih2 := ih (fun d hd => hw d (List.mem_cons_of_mem c hd))
    simp [List.takeWhile, List.dropWhile, hc, ih2.1, ih2.2]

theorem tokenize_whitespace_step (cs : List Char) :
    tokenize (' ' :: cs) = tokenize cs := by
  simp [tokenize]

theorem tokenize_single_step (c : Char) (cs : List Char)
    (h1 : c.isWhitespace = false) (h2 : is_single_char_token c = true) :
    tokenize (c :: cs) =
      match tokenize cs with
      | none => none
      | some toks => some (String.mk [c] :: toks) := by
  rw [tokenize]
  simp [h1, h2]

theorem tokenize_word_step (c : Char) (cs : List Char) (h : is_word_char c = true) :
    tokenize (c :: cs) =
      match tokenize (cs.dropWhile is_word_char) with
      | none => none
      | some toks => some (String.mk (c :: cs.takeWhile is_word_char) :: toks) := by
  rw [tokenize]
  simp [word_char_not_whitespace c h, word_char_not_single c h, h]

theorem is_id_token_word_chars (tok : String) (h : is_id_token tok = true) :
    ∃ c cs, tok.data = c :: cs ∧ ∀ d ∈ tok.data, is_word_char d = true := by
  unfold is_id_token at h
  cases hd : tok.data with
  | nil => rw [hd] at h; simp at h
  | cons c cs =>
    rw [hd] at h
    simp only [Bool.and_eq_true] at h
    refine ⟨c, cs, rfl, ?_⟩
    intro d hdmem
    have hall := h.2
    rw [List.all_eq_true] at hall
    have := hall d (hd ▸ hdmem)
    simpa [is_word_char] using this

theorem is_prim_token_word_chars (tok : String) (h : is_prim_token tok = true) :
    ∃ c, tok.data = [c] ∧ is_word_char c = true := by
  have : tok = "0" ∨ tok = "1" := by simpa [is_prim_token] using h
  cases this with
  | inl h0 => subst h0; exact ⟨'0', rfl, by decide⟩
  | inr h0 => subst h0; exact ⟨'1', rfl, by decide⟩

theorem tokenize_word_token (tok : String) (c : Char) (cs : List Char)
    (hd : tok.data = c :: cs) (hw : ∀ d ∈ tok.data, is_word_char d = true)
    (s : List Char) (ts : List String)
    (hs : s = [] ∨ (∃ s', s = ' ' :: s') ∨ (∃ s', s = ')' :: s'))
    (hts : tokenize s = some ts) :
    tokenize (tok.data ++ s) = some (tok :: ts) := by
  rw [hd, List.cons_append, tokenize_word_step c (cs ++ s)
    (hw c (by rw [hd]; exact List.mem_cons_self c cs))]
  have hwcs : ∀ d ∈ cs, is_word_char d = true := by
    intro d hdm
    exact hw d (by rw [hd]; exact List.mem_cons_of_mem c hdm)
  obtain ⟨htake, hdrop⟩ := takeWhile_word_append cs s hwcs hs
  rw [htake, hdrop, hts]
  have : String.mk (c :: cs) = tok := by rw [← hd]
  rw [this]

theorem tokenize_canonical :
    ∀ (t : Node), wf t = true → ∀ (s : List Char) (ts : List String),
      (s = [] ∨ (∃ s', s = ' ' :: s') ∨ (∃ s', s = ')' :: s')) →
      tokenize s = some ts →
      tokenize ((to_string t).data ++ s) = some (canonical_tokens t ++ ts) := by
  intro t
  induction t with
  | prim tok =>
    intro hwf s ts hs hts
    obtain ⟨c, hd, hw⟩ := is_prim_token_word_chars tok (by simpa [wf] using hwf)
    simp only [to_string, canonical_tokens, List.singleton_append]
    exact tokenize_word_token tok c [] hd (by rw [hd]; simpa using hw) s ts hs hts
  | var tok =>
    intro hwf s ts hs hts
    obtain ⟨c, cs, hd, hw⟩ := is_id_token_word_chars tok (by simpa [wf] using hwf)
    simp only [to_string, canonical_tokens, List.singleton_append]
    exact tokenize_word_token tok c cs hd hw s ts hs hts
  | unres tok =>
    intro hwf
    simp [wf] at hwf
  | op1 c ih =>
    intro hwf s ts hs hts
    have hwc : wf c = true := by simpa [wf] using hwf
    have hdata : (to_string (Node.op1 c)).data ++ s =
        '(' :: '~' :: ' ' :: ((to_string c).data ++ (')' :: s)) := by
      simp [to_string, String.data_append]
    rw [hdata]
    rw [tokenize_single_step '(' _ (by decide) (by decide)]
    rw [tokenize_single_step '~' _ (by decide) (by decide)]
    rw [tokenize_whitespace_step]
    have hts2 : tokenize (')' :: s) = some (")" :: ts) := by
      rw [tokenize_single_step ')' _ (by decide) (by decide), hts]
    rw [ih hwc (')' :: s) (")" :: ts) (Or.inr (Or.inr ⟨s, rfl⟩)) hts2]
    simp [canonical_tokens]
  | op2 tok l r ihl ihr =>
    intro hwf s ts hs hts
    have hwfs : (is_bop_token tok = true ∧ wf l = true) ∧ wf r = true := by
      simpa [wf, Bool.and_eq_true] using hwf
    obtain ⟨⟨hbop, hwl⟩, hwr⟩ := hwfs
    have htok : tok = "*" ∨ tok = "+" := by simpa [is_bop_token] using hbop
    have hts3 : tokenize (')' :: s) = some (")" :: ts) := by
      rw [tokenize_single_step ')' _ (by decide) (by decide), hts]
    have hts2 : tokenize (' ' :: ((to_string r).data ++ (')' :: s))) =
        some (canonical_tokens r ++ (")" :: ts)) := by
      rw [tokenize_whitespace_step]
      exact ihr hwr (')' :: s) (")" :: ts) (Or.inr (Or.inr ⟨s, rfl⟩)) hts3
    have hts1 : tokenize ((to_string l).data ++
        (' ' :: ((to_string r).data ++ (')' :: s)))) =
        some (canonical_tokens l ++ (canonical_tokens r ++ (")" :: ts))) := by
      exact ihl hwl _ _ (Or.inr (Or.inl ⟨_, rfl⟩)) hts2
    cases htok with
    | inl h0 =>
      subst h0
      have hdata : (to_string (Node.op2 "*" l r)).data ++ s =
          '(' :: '*' :: ' ' :: ((to_string l).data ++
            (' ' :: ((to_string r).data ++ (')' :: s)))) := by
        simp [to_string, String.data_append]
      rw [hdata]
      rw [tokenize_single_step '(' _ (by decide) (by decide)]
      rw [tokenize_single_step '*' _ (by decide) (by decide)]
      rw [tokenize_whitespace_step, hts1]
      simp [canonical_tokens]
    | inr h0 =>
      subst h0
      have hdata : (to_string (Node.op2 "+" l r)).data ++ s =
          '(' :: '+' :: ' ' :: ((to_string l).data ++
            (' ' :: ((to_string r).data ++ (')' :: s)))) := by
        simp [to_string, String.data_append]
      rw [hdata]
      rw [tokenize_single_step '(' _ (by decide) (by decide)]
      rw [tokenize_single_step '+' _ (by decide) (by decide)]
      rw [tokenize_whitespace_step, hts1]
      simp [canonical_tokens]

/-- C9: for every term the parser produces, tokenizing and parsing its
canonical text succeeds and yields a term with the identical canonical
text (indeed the identical term: well-formed parser output contains no
UNRES, so even the VAR/UNRES distinction survives). -/
theorem canonical_print_roundtrip (toks : List String) (t : Node) (rest : List String)
    (h : parse_formula toks = some (t, rest)) :
    ∃ toks2 t2, tokenize (to_string t).data = some toks2 ∧
      parse_formula toks2 = some (t2, []) ∧ to_string t2 = to_string t := by
  have hwf : wf t = true := parse_formula_fuel_wf toks.length toks t rest h
  refine ⟨canonical_tokens t, t, ?_, ?_, rfl⟩
  · have := tokenize_canonical t hwf [] [] (Or.inl rfl) (by simp [tokenize])
    simpa using this
  · unfold parse_formula
    have := parse_formula_fuel_canonical t hwf (canonical_tokens t).length [] (Nat.le_refl _)
    simpa using this

/-- Witness for `canonical_print_roundtrip` at the parsed formula
`(~ x)`. -/
theorem canonical_print_roundtrip_witness :
    parse_formula ["(", "~", "x", ")"] = some (Node.op1 (Node.var "x"), []) ∧
    (∃ toks2 t2,
      tokenize (to_string (Node.op1 (Node.var "x"))).data = some toks2 ∧
      parse_formula toks2 = some (t2, []) ∧
      to_string t2 = to_string (Node.op1 (Node.var "x"))) :=
  ⟨by decide,
   canonical_print_roundtrip ["(", "~", "x", ")"] (Node.op1 (Node.var "x")) [] (by decide)⟩

theorem enqueue_successors_balance (u : Node) (hu : String) :
    ∀ (succs : List (String × Node)) (st : SearchState),
      (enqueue_successors u hu succs st).states = st.states ∧
      (enqueue_successors u hu succs st).Q.length + st.vis.length =
        (enqueue_successors u hu succs st).vis.length + st.Q.length := by
  intro succs
  induction succs with
  | nil => intro st; exact ⟨rfl, Nat.add_comm _ _⟩
  | cons pr rest ih =>
    intro st
    by_cases hmem : to_string pr.2 ∈ st.vis
    · have hstep : enqueue_successors u hu (pr :: rest) st =
          enqueue_successors u hu rest st := by
        simp [enqueue_successors, hmem]
      rw [hstep]
      exact ih st
    · have hstep : enqueue_successors u hu (pr :: rest) st =
          enqueue_successors u hu rest
            { st with
              vis := to_string pr.2 :: st.vis
              Q := st.Q ++ [pr.2]
              depth := (to_string pr.2, (find_assoc st.depth hu).getD 0 + 1) :: st.depth
              parent := (to_string pr.2, (pr.1, u)) :: st.parent } := by
        simp [enqueue_successors, hmem]
      rw [hstep]
      obtain ⟨h1, h2⟩ := ih
        { st with
          vis := to_string pr.2 :: st.vis
          Q := st.Q ++ [pr.2]
          depth := (to_string pr.2, (find_assoc st.depth hu).getD 0 + 1) :: st.depth
          parent := (to_string pr.2, (pr.1, u)) :: st.parent }
      refine ⟨h1.trans rfl, ?_⟩
      dsimp only at h2 ⊢
      simp only [List.length_append, List.length_cons, List.length_nil] at h2 ⊢
      omega

theorem bfs_balance (axioms : List Rule) (md mts : Nat) (hstart htarget : String) :
    ∀ (fuel : Nat) (st : SearchState) (tr : List TraceEvent),
      st.states + st.Q.length = st.vis.length →
      (∀ path stf trf,
        bfsRun axioms md mts hstart htarget fuel st tr = SearchResult.found path stf trf →
        stf.states + stf.Q.length = stf.vis.length) ∧
      (∀ stf trf,
        bfsRun axioms md mts hstart htarget fuel st tr = SearchResult.notFound stf trf →
        stf.Q = [] ∧ stf.states = stf.vis.length) := by
  intro fuel
  induction fuel with
  | zero =>
    intro st tr hinv
    constructor
    · intro path stf trf h
      simp [bfsRun] at h
    · intro stf trf h
      simp [bfsRun] at h
  | succ fuel ih =>
    intro st tr hinv
    obtain ⟨Q, vis, parent, depth, gen, states⟩ := st
    cases Q with
    | nil =>
      constructor
      · intro path stf trf h
        simp [bfsRun] at h
      · intro stf trf h
        simp only [bfsRun] at h
        injection h with h1 h2
        subst h1
        simp only [List.length_nil] at hinv
        exact ⟨rfl, by simpa using hinv⟩
    | cons u rest =>
      simp only [List.length_cons] at hinv
      simp only [bfsRun]
      by_cases htgt : to_string u = htarget
      · simp only [htgt, if_true]
        cases hrec : reconstruct parent hstart (depth.length + 1) u with
        | none =>
          constructor
          · intro path stf trf h
            simp at h
          · intro stf trf h
            simp at h
        | some path0 =>
          constructor
          · intro path stf trf h
            injection h with h1 h2 h3
            subst h2
            simpa using by omega
          · intro stf trf h
            simp at h
      · simp only [htgt, if_false]
        by_cases hbnd : mts < (to_string u).length ∨
            md ≤ (find_assoc depth (to_string u)).getD 0
        · rw [if_pos hbnd]
          apply ih
          simpa using by omega
        · rw [if_neg hbnd]
          cases hp : possible_next_trees axioms u gen with
          | none =>
            constructor
            · intro path stf trf h
              simp at h
            · intro stf trf h
              simp at h
          | some pr =>
            obtain ⟨succs, gen'⟩ := pr
            dsimp only
            apply ih
            obtain ⟨h1, h2⟩ := enqueue_successors_balance u (to_string u) succs
              { Q := rest, vis := vis, parent := parent, depth := depth, gen := gen',
                states := states + 1 }
            dsimp only at h1 h2 ⊢
            omega

/-- C10 (amended): the `states` count equals the number of dequeued
nodes; at any return it differs from the number of distinct canonical
keys inserted into the visited set by exactly the number of nodes still
in the frontier — so the two agree on failure (frontier exhausted), but
on success the visited keys still queued are not counted. -/
theorem states_counts_dequeued_nodes (fuel : Nat) (axioms : List Rule) (start target : Node)
    (md mts : Nat) :
    (∀ path stf trf,
      find_shortest_path fuel axioms start target md mts = SearchResult.found path stf trf →
      stf.states + stf.Q.length = stf.vis.length) ∧
    (∀ stf trf,
      find_shortest_path fuel axioms start target md mts = SearchResult.notFound stf trf →
      stf.Q = [] ∧ stf.states = stf.vis.length) := by
  have h := bfs_balance axioms md mts (to_string start) (to_string target) fuel
    (init_state start) [] (by simp [init_state])
  simpa [find_shortest_path] using h

/-- Witness for `states_counts_dequeued_nodes` at the trivial search
`1 = 1`, whose final state has one dequeued node, an empty frontier and
one visited key. -/
theorem states_counts_dequeued_witness :
    ({ Q := [], vis := [to_string (Node.prim "1")], parent := [], depth := [], gen := 0,
       states := 1 } : SearchState).states +
      ({ Q := [], vis := [to_string (Node.prim "1")], parent := [], depth := [], gen := 0,
         states := 1 } : SearchState).Q.length =
      ({ Q := [], vis := [to_string (Node.prim "1")], parent := [], depth := [], gen := 0,
         states := 1 } : SearchState).vis.length :=
  (states_counts_dequeued_nodes 1 [] (Node.prim "1") (Node.prim "1") 8 20).1 []
    { Q := [], vis := [to_string (Node.prim "1")], parent := [], depth := [], gen := 0,
      states := 1 } [] (by decide)

theorem find_assoc_append_not_mem {α : Type} (l1 l2 : List (String × α)) (k : String)
    (h : k ∉ l1.map Prod.fst) : find_assoc (l1 ++ l2) k = find_assoc l2 k := by
  induction l1 with
  | nil => rfl
  | cons hd tl ih =>
    obtain ⟨k', v⟩ := hd
    simp only [List.map_cons, List.mem_cons] at h
    push_neg at h
    simp only [List.cons_append, find_assoc]
    rw [if_neg (fun he : k' = k => h.1 he.symm)]
    exact ih h.2

theorem find_assoc_isSome_iff_mem {α : Type} (l : List (String × α)) (k : String) :
    (find_assoc l k).isSome = true ↔ k ∈ l.map Prod.fst := by
  constructor
  · intro h
    by_contra hmem
    rw [(find_assoc_none_iff l k).mpr hmem] at h
    simp at h
  · intro hmem
    cases hf : find_assoc l k with
    | none => exact absurd ((find_assoc_none_iff l k).mp hf) (by simpa using hmem)
    | some v => rfl

theorem enqueue_vis_monotone (u : Node) (hu : String) :
    ∀ (succs : List (String × Node)) (st : SearchState) (k : String),
      k ∈ st.vis → k ∈ (enqueue_successors u hu succs st).vis := by
  intro succs
  induction succs with
  | nil => intro st k hk; exact hk
  | cons pr rest ih =>
    intro st k hk
    by_cases hmem : to_string pr.2 ∈ st.vis
    · have hstep : enqueue_successors u hu (pr :: rest) st =
          enqueue_successors u hu rest st := by
        simp [enqueue_successors, hmem]
      rw [hstep]
      exact ih st k hk
    · have hstep : enqueue_successors u hu (pr :: rest) st =
          enqueue_successors u hu rest
            { st with
              vis := to_string pr.2 :: st.vis
              Q := st.Q ++ [pr.2]
              depth := (to_string pr.2, (find_assoc st.depth hu).getD 0 + 1) :: st.depth
              parent := (to_string pr.2, (pr.1, u)) :: st.parent } := by
        simp [enqueue_successors, hmem]
      rw [hstep]
      exact ih _ k (List.mem_cons_of_mem _ hk)

theorem enqueue_mem_succs (u : Node) (hu : String) :
    ∀ (succs : List (String × Node)) (st : SearchState) (pr : String × Node),
      pr ∈ succs → to_string pr.2 ∈ (enqueue_successors u hu succs st).vis := by
  intro succs
  induction succs with
  | nil => intro st pr hpr; cases hpr
  | cons pr0 rest ih =>
    intro st pr hpr
    by_cases hmem : to_string pr0.2 ∈ st.vis
    · have hstep : enqueue_successors u hu (pr0 :: rest) st =
          enqueue_successors u hu rest st := by
        simp [enqueue_successors, hmem]
      rw [hstep]
      cases List.mem_cons.mp hpr with
      | inl he => subst he; exact enqueue_vis_monotone u hu rest st _ hmem
      | inr hm => exact ih st pr hm
    · have hstep : enqueue_successors u hu (pr0 :: rest) st =
          enqueue_successors u hu rest
            { st with
              vis := to_string pr0.2 :: st.vis
              Q := st.Q ++ [pr0.2]
              depth := (to_string pr0.2, (find_assoc st.depth hu).getD 0 + 1) :: st.depth
              parent := (to_string pr0.2, (pr0.1, u)) :: st.parent } := by
        simp [enqueue_successors, hmem]
      rw [hstep]
      cases List.mem_cons.mp hpr with
      | inl he =>
        subst he
        exact enqueue_vis_monotone u hu rest _ _ (List.mem_cons_self _ _)
      | inr hm => exact ih _ pr hm

theorem enqinv_step (hstart : String) (u : Node) (du : Nat) (origQ : List Node)
    (origDepth : List (String × Nat)) (origVis : List String)
    (pr : String × Node) (st : SearchState)
    (hmemu : to_string u ∈ origVis)
    (hinv : EnqInv hstart u du origQ origDepth origVis st)
    (hfresh : to_string pr.2 ∉ st.vis) :
    EnqInv hstart u du origQ origDepth origVis
      { st with
        vis := to_string pr.2 :: st.vis
        Q := st.Q ++ [pr.2]
        depth := (to_string pr.2, (find_assoc st.depth (to_string u)).getD 0 + 1) :: st.depth
        parent := (to_string pr.2, (pr.1, u)) :: st.parent } := by
  have hku : to_string u ∈ st.vis := hinv.vis_mono _ hmemu
  have hvne : to_string pr.2 ≠ hstart := by
    intro he
    apply hfresh
    rw [hinv.vis_iff]
    exact Or.inr he
  have hnotkey : to_string pr.2 ∉ st.depth.map Prod.fst := by
    intro hmem
    apply hfresh
    rw [hinv.vis_iff]
    exact Or.inl ((find_assoc_isSome_iff_mem _ _).mpr hmem)
  have hdval : (find_assoc st.depth (to_string u)).getD 0 + 1 = du + 1 := by
    have := hinv.key_u
    simp only [Dk] at this
    rw [this]
  have hfind_old : ∀ k, k ≠ to_string pr.2 →
      find_assoc ((to_string pr.2, (find_assoc st.depth (to_string u)).getD 0 + 1)
        :: st.depth) k = find_assoc st.depth k := by
    intro k hk
    simp only [find_assoc]
    rw [if_neg (fun he => hk he.symm)]
  have hfind_new : find_assoc ((to_string pr.2,
      (find_assoc st.depth (to_string u)).getD 0 + 1) :: st.depth) (to_string pr.2) =
      some ((find_assoc st.depth (to_string u)).getD 0 + 1) := by
    simp [find_assoc]
  have hvisne : ∀ k, k ∈ st.vis → k ≠ to_string pr.2 := by
    intro k hk he
    exact hfresh (he ▸ hk)
  constructor
  · -- depth_ext
    obtain ⟨ext, hext, hextvis, hextval⟩ := hinv.depth_ext
    refine ⟨(to_string pr.2, (find_assoc st.depth (to_string u)).getD 0 + 1) :: ext,
      by simp [hext], ?_, ?_⟩
    · intro k hk
      simp only [List.map_cons, List.mem_cons] at hk
      cases hk with
      | inl he =>
        subst he
        intro hmem
        exact hfresh (hinv.vis_mono _ hmem)
      | inr hm => exact hextvis k hm
    · intro kd hkd
      cases List.mem_cons.mp hkd with
      | inl he => subst he; simpa using hdval
      | inr hm => exact hextval kd hm
  · -- depth_nodup
    simp only [List.map_cons]
    exact List.Nodup.cons hnotkey hinv.depth_nodup
  · -- start_depth
    rw [hfind_old hstart (Ne.symm hvne)]
    exact hinv.start_depth
  · -- vis_iff
    intro k
    by_cases he : k = to_string pr.2
    · subst he
      simp only [List.mem_cons, true_or, true_iff]
      rw [hfind_new]
      simp
    · simp only [List.mem_cons]
      rw [hfind_old k he]
      constructor
      · intro hk
        cases hk with
        | inl h0 => exact absurd h0 he
        | inr h0 => exact (hinv.vis_iff k).mp h0
      · intro hk
        exact Or.inr ((hinv.vis_iff k).mpr hk)
  · -- q_shape
    obtain ⟨news, hq, hnews⟩ := hinv.q_shape
    refine ⟨news ++ [pr.2], by simp [hq], ?_⟩
    intro v hv
    cases List.mem_append.mp hv with
    | inl hm =>
      obtain ⟨hd, hm2⟩ := hnews v hm
      have hne : to_string v ≠ to_string pr.2 := hvisne _ hm2
      constructor
      · simp only [Dk]
        rw [hfind_old _ hne]
        exact hd
      · exact List.mem_cons_of_mem _ hm2
    | inr hm =>
      have he : v = pr.2 := by simpa using hm
      subst he
      constructor
      · simp only [Dk]
        rw [hfind_new]
        simpa using hdval
      · exact List.mem_cons_self _ _
  · -- vis_bound
    intro k hk
    cases List.mem_cons.mp hk with
    | inl he =>
      subst he
      simp only [Dk]
      rw [hfind_new]
      simpa using Nat.le_of_eq hdval
    | inr hm =>
      have hne := hvisne _ hm
      simp only [Dk]
      rw [hfind_old _ hne]
      exact hinv.vis_bound k hm
  · -- parent_prop
    intro k nm p hkp
    cases List.mem_cons.mp hkp with
    | inl he =>
      rw [Prod.mk.injEq] at he
      obtain ⟨hk, he2⟩ := he
      rw [Prod.mk.injEq] at he2
      obtain ⟨-, hp⟩ := he2
      subst hk
      refine ⟨?_, ?_, List.mem_cons_self _ _⟩
      · have hne : to_string u ≠ to_string pr.2 := hvisne _ hku
        simp only [Dk]
        rw [hfind_new, hp, hfind_old _ hne]
        have hku3 := hinv.key_u
        simp only [Dk] at hku3
        rw [hku3]
        simp [hdval]
      · rw [hp]
        exact List.mem_cons_of_mem _ hku
    | inr hm =>
      obtain ⟨hd, hp, hk⟩ := hinv.parent_prop k nm p hm
      have hnek : k ≠ to_string pr.2 := hvisne _ hk
      have hnep : to_string p ≠ to_string pr.2 := hvisne _ hp
      refine ⟨?_, List.mem_cons_of_mem _ hp, List.mem_cons_of_mem _ hk⟩
      simp only [Dk]
      rw [hfind_old _ hnek, hfind_old _ hnep]
      exact hd
  · -- vis_parent
    intro k hk hkne
    cases List.mem_cons.mp hk with
    | inl he =>
      subst he
      simp [find_assoc]
    | inr hm =>
      have hne : k ≠ to_string pr.2 := hvisne _ hm
      simp only [find_assoc]
      rw [if_neg (fun he => hne he.symm)]
      exact hinv.vis_parent k hm hkne
  · -- depth_le
    intro kd hkd
    simp only [List.length_cons]
    cases List.mem_cons.mp hkd with
    | inl he =>
      subst he
      simp only
      have hdu_le : du ≤ st.depth.length := by
        have hku2 := hku
        rw [hinv.vis_iff] at hku2
        cases hku2 with
        | inl hsome =>
          cases hf : find_assoc st.depth (to_string u) with
          | none => rw [hf] at hsome; simp at hsome
          | some d =>
            have hmem := mem_of_find_assoc_some hf
            have hle := hinv.depth_le _ hmem
            have : Dk st.depth (to_string u) = d := by simp [Dk, hf]
            have hdud : du = d := by rw [← hinv.key_u, this]
            simpa [hdud] using hle
        | inr hs =>
          have : Dk st.depth (to_string u) = 0 := by
            simp [Dk, hs ▸ hinv.start_depth]
          have hdu0 : du = 0 := by rw [← hinv.key_u, this]
          simp [hdu0]
      calc (find_assoc st.depth (to_string u)).getD 0 + 1 = du + 1 := hdval
        _ ≤ st.depth.length + 1 := by omega
    | inr hm =>
      exact Nat.le_trans (hinv.depth_le kd hm) (Nat.le_succ _)
  · -- vis_mono
    intro k hk
    exact List.mem_cons_of_mem _ (hinv.vis_mono k hk)
  · -- depth_pres
    intro k hk
    have hne : k ≠ to_string pr.2 := hvisne _ (hinv.vis_mono k hk)
    rw [hfind_old _ hne]
    exact hinv.depth_pres k hk
  · -- key_u
    have hne : to_string u ≠ to_string pr.2 := hvisne _ hku
    simp only [Dk]
    rw [hfind_old _ hne]
    exact hinv.key_u

theorem enqinv_fold (hstart : String) (u : Node) (du : Nat) (origQ : List Node)
    (origDepth : List (String × Nat)) (origVis : List String)
    (hmemu : to_string u ∈ origVis) :
    ∀ (succs : List (String × Node)) (st : SearchState),
      EnqInv hstart u du origQ origDepth origVis st →
      EnqInv hstart u du origQ origDepth origVis
        (enqueue_successors u (to_string u) succs st) := by
  intro succs
  induction succs with
  | nil => intro st h; exact h
  | cons pr rest ih =>
    intro st h
    by_cases hmem : to_string pr.2 ∈ st.vis
    · have hstep : enqueue_successors u (to_string u) (pr :: rest) st =
          enqueue_successors u (to_string u) rest st := by
        simp [enqueue_successors, hmem]
      rw [hstep]
      exact ih st h
    · have hstep : enqueue_successors u (to_string u) (pr :: rest) st =
          enqueue_successors u (to_string u) rest
            { st with
              vis := to_string pr.2 :: st.vis
              Q := st.Q ++ [pr.2]
              depth := (to_string pr.2,
                (find_assoc st.depth (to_string u)).getD 0 + 1) :: st.depth
              parent := (to_string pr.2, (pr.1, u)) :: st.parent } := by
        simp [enqueue_successors, hmem]
      rw [hstep]
      exact ih _ (enqinv_step hstart u du origQ origDepth origVis pr st hmemu h hmem)

theorem searchinv_base_enqinv (hstart : String) (st : SearchState) (u : Node)
    (rest : List Node) (gen' : Nat)
    (hinv : SearchInv hstart st) (hq : st.Q = u :: rest) :
    EnqInv hstart u (Dk st.depth (to_string u)) rest st.depth st.vis
      { st with Q := rest, states := st.states + 1, gen := gen' } := by
  constructor
  · exact ⟨[], rfl, by simp, by simp⟩
  · exact hinv.depth_nodup
  · exact hinv.start_depth
  · exact hinv.vis_iff
  · exact ⟨[], by simp, by simp⟩
  · exact hinv.vis_le_front u rest hq
  · exact hinv.parent_prop
  · exact hinv.vis_parent
  · exact hinv.depth_le
  · intro k hk; exact hk
  · intro k _; rfl
  · rfl

theorem enqinv_to_searchinv (hstart : String) (u : Node) (du : Nat) (origQ : List Node)
    (origDepth : List (String × Nat)) (origVis : List String) (st2 : SearchState)
    (henq : EnqInv hstart u du origQ origDepth origVis st2)
    (hsorted : (origQ.map (fun v => Dk origDepth (to_string v))).Sorted (· ≤ ·))
    (horigvis : ∀ v ∈ origQ, to_string v ∈ origVis)
    (hfront : ∀ v ∈ origQ, du ≤ Dk origDepth (to_string v)) :
    SearchInv hstart st2 := by
  obtain ⟨news, hq, hnews⟩ := henq.q_shape
  have hpres : ∀ v ∈ origQ, Dk st2.depth (to_string v) = Dk origDepth (to_string v) := by
    intro v hv
    simp only [Dk]
    rw [henq.depth_pres _ (horigvis v hv)]
  constructor
  · exact henq.depth_nodup
  · exact henq.start_depth
  · exact henq.vis_iff
  · -- queue_sorted
    rw [hq, List.map_append]
    refine List.pairwise_append.mpr ⟨?_, ?_, ?_⟩
    · rw [List.map_congr_left hpres]
      exact hsorted
    · apply List.pairwise_of_forall_mem_list
      intro a ha b hb
      simp only [List.mem_map] at ha hb
      obtain ⟨va, hva, rfl⟩ := ha
      obtain ⟨vb, hvb, rfl⟩ := hb
      rw [(hnews va hva).1, (hnews vb hvb).1]
    · intro a ha b hb
      simp only [List.mem_map] at ha hb
      obtain ⟨va, hva, rfl⟩ := ha
      obtain ⟨vb, hvb, rfl⟩ := hb
      rw [(hnews vb hvb).1]
      have : to_string va ∈ st2.vis := henq.vis_mono _ (horigvis va hva)
      exact henq.vis_bound _ this
  · -- queue_vis
    intro v hv
    rw [hq] at hv
    cases List.mem_append.mp hv with
    | inl hm => exact henq.vis_mono _ (horigvis v hm)
    | inr hm => exact (hnews v hm).2
  · -- vis_le_front
    intro u2 rest2 hq2 k hk
    have hu2 : u2 ∈ st2.Q := by rw [hq2]; exact List.mem_cons_self _ _
    have hbound := henq.vis_bound k hk
    have hdu : du ≤ Dk st2.depth (to_string u2) := by
      rw [hq] at hu2
      cases List.mem_append.mp hu2 with
      | inl hm =>
        rw [hpres u2 hm]
        exact hfront u2 hm
      | inr hm =>
        rw [(hnews u2 hm).1]
        omega
    omega
  · exact henq.parent_prop
  · exact henq.vis_parent
  · exact henq.depth_le

theorem searchinv_skip (hstart : String) (st : SearchState) (u : Node) (rest : List Node)
    (hinv : SearchInv hstart st) (hq : st.Q = u :: rest) :
    SearchInv hstart { st with Q := rest, states := st.states + 1 } := by
  have hsorted := hinv.queue_sorted
  rw [hq, List.map_cons] at hsorted
  constructor
  · exact hinv.depth_nodup
  · exact hinv.start_depth
  · exact hinv.vis_iff
  · exact hsorted.of_cons
  · intro v hv
    exact hinv.queue_vis v (by rw [hq]; exact List.mem_cons_of_mem _ hv)
  · intro u2 rest2 hq2 k hk
    simp only at hq2
    have h1 := hinv.vis_le_front u rest hq k hk
    have h2 : Dk st.depth (to_string u) ≤ Dk st.depth (to_string u2) := by
      apply List.rel_of_sorted_cons hsorted
      rw [hq2]
      exact List.mem_map_of_mem _ (List.mem_cons_self _ _)
    simp only
    omega
  · exact hinv.parent_prop
  · exact hinv.vis_parent
  · exact hinv.depth_le

theorem reconstruct_length (hstart : String) (parent : List (String × (String × Node)))
    (depth : List (String × Nat)) (vis : List String)
    (hstart0 : find_assoc depth hstart = none)
    (hpar : ∀ k nm p, (k, (nm, p)) ∈ parent →
      Dk depth k = Dk depth (to_string p) + 1 ∧ to_string p ∈ vis ∧ k ∈ vis)
    (hvp : ∀ k, k ∈ vis → k ≠ hstart → (find_assoc parent k).isSome) :
    ∀ (n : Nat) (cur : Node), to_string cur ∈ vis → Dk depth (to_string cur) < n →
      ∃ p, reconstruct parent hstart n cur = some p ∧
        p.length = Dk depth (to_string cur) := by
  intro n
  induction n with
  | zero => intro cur _ h; omega
  | succ n ih =>
    intro cur hvis hlt
    by_cases hc : to_string cur = hstart
    · refine ⟨[], by simp [reconstruct, hc], ?_⟩
      simp [Dk, hc, hstart0]
    · have hsome := hvp _ hvis hc
      cases hf : find_assoc parent (to_string cur) with
      | none => rw [hf] at hsome; simp at hsome
      | some pr =>
        obtain ⟨nm, p⟩ := pr
        obtain ⟨hd, hpvis, -⟩ := hpar _ _ _ (mem_of_find_assoc_some hf)
        have hplt : Dk depth (to_string p) < n := by omega
        obtain ⟨pl, hrec, hlen⟩ := ih p hpvis hplt
        refine ⟨pl ++ [(nm, cur)], ?_, ?_⟩
        · simp only [reconstruct]
          rw [if_neg hc, hf]
          dsimp only
          rw [hrec]
        · simp only [List.length_append, List.length_cons, List.length_nil, hlen]
          omega

theorem searchinv_init (start : Node) : SearchInv (to_string start) (init_state start) := by
  constructor
  · simp [init_state]
  · simp [init_state, find_assoc]
  · intro k
    simp [init_state, find_assoc, eq_comm]
  · simp [init_state]
  · intro v hv
    simp only [init_state, List.mem_singleton] at hv
    subst hv
    simp [init_state]
  · intro u rest hq k hk
    simp only [init_state, List.mem_singleton] at hk
    subst hk
    simp [Dk, find_assoc]
  · intro k nm p h
    simp [init_state] at h
  · intro k hk hne
    simp only [init_state, List.mem_singleton] at hk
    exact absurd hk hne
  · intro kd h
    simp [init_state] at h

theorem bfs_found_depths (axioms : List Rule) (md mts : Nat) (hstart htarget : String) :
    ∀ (fuel : Nat) (st : SearchState) (tr : List TraceEvent),
      SearchInv hstart st →
      ∀ path stf trf,
        bfsRun axioms md mts hstart htarget fuel st tr = SearchResult.found path stf trf →
        (∀ k, k ∈ st.vis → find_assoc stf.depth k = find_assoc st.depth k) ∧
        find_assoc stf.depth hstart = none ∧
        (∀ ev ∈ trf, ev ∈ tr ∨
          (∀ pr ∈ ev.2, Dk stf.depth (to_string pr.2) ≤ Dk stf.depth (to_string ev.1) + 1)) ∧
        path.length = Dk stf.depth htarget := by
  intro fuel
  induction fuel with
  | zero =>
    intro st tr _ path stf trf h
    simp [bfsRun] at h
  | succ fuel ih =>
    intro st tr hinv path stf trf h
    obtain ⟨Q, vis, parent, depth, gen, states⟩ := st
    cases Q with
    | nil => simp [bfsRun] at h
    | cons u rest =>
      simp only [bfsRun] at h
      by_cases htgt : to_string u = htarget
      · rw [if_pos htgt] at h
        cases hrec : reconstruct parent hstart (depth.length + 1) u with
        | none => rw [hrec] at h; simp at h
        | some path0 =>
          rw [hrec] at h
          dsimp only at h
          injection h with h1 h2 h3
          subst h1 h2 h3
          have hvisu : to_string u ∈ vis := hinv.queue_vis u (List.mem_cons_self _ _)
          have hlt : Dk depth (to_string u) < depth.length + 1 := by
            have := (hinv.vis_iff (to_string u)).mp hvisu
            cases this with
            | inl hsome =>
              cases hf : find_assoc depth (to_string u) with
              | none => rw [hf] at hsome; simp at hsome
              | some d =>
                have hmem := mem_of_find_assoc_some hf
                have hle := hinv.depth_le _ hmem
                simp only [Dk, hf, Option.getD_some]
                simpa using Nat.lt_succ_of_le hle
            | inr hs =>
              rw [hs]
              simp only [Dk, hinv.start_depth, Option.getD_none]
              omega
          obtain ⟨p, hp, hplen⟩ := reconstruct_length hstart parent depth vis
            hinv.start_depth hinv.parent_prop hinv.vis_parent
            (depth.length + 1) u hvisu hlt
          have hpe : p = path0 := by
            rw [hp] at hrec
            exact Option.some.inj hrec
          refine ⟨fun k _ => rfl, hinv.start_depth, fun ev hev => Or.inl hev, ?_⟩
          rw [← hpe, hplen, htgt]
      · rw [if_neg htgt] at h
        by_cases hbnd : mts < (to_string u).length ∨
            md ≤ (find_assoc depth (to_string u)).getD 0
        · rw [if_pos hbnd] at h
          exact ih _ tr (searchinv_skip hstart
            ⟨u :: rest, vis, parent, depth, gen, states⟩ u rest hinv rfl) path stf trf h
        · rw [if_neg hbnd] at h
          cases hp : possible_next_trees axioms u gen with
          | none => rw [hp] at h; simp at h
          | some pr =>
            obtain ⟨succs, gen'⟩ := pr
            rw [hp] at h
            dsimp only at h
            have hmemu : to_string u ∈ vis := hinv.queue_vis u (List.mem_cons_self _ _)
            have hsorted0 := hinv.queue_sorted
            rw [List.map_cons] at hsorted0
            have henq : EnqInv hstart u (Dk depth (to_string u)) rest depth vis
                (enqueue_successors u (to_string u) succs
                  { Q := rest, vis := vis, parent := parent, depth := depth,
                    gen := gen', states := states + 1 }) := by
              apply enqinv_fold hstart u _ rest depth vis hmemu
              exact searchinv_base_enqinv hstart
                ⟨u :: rest, vis, parent, depth, gen, states⟩ u rest gen' hinv rfl
            have hinv2 : SearchInv hstart
                (enqueue_successors u (to_string u) succs
                  { Q := rest, vis := vis, parent := parent, depth := depth,
                    gen := gen', states := states + 1 }) := by
              apply enqinv_to_searchinv hstart u _ rest depth vis _ henq
              · exact hsorted0.of_cons
              · intro v hv
                exact hinv.queue_vis v (List.mem_cons_of_mem _ hv)
              · intro v hv
                apply List.rel_of_sorted_cons hsorted0
                exact List.mem_map_of_mem _ hv
            obtain ⟨ihext, ihstart, ihtr, ihlen⟩ :=
              ih _ (tr ++ [(u, succs)]) hinv2 path stf trf h
            refine ⟨?_, ihstart, ?_, ihlen⟩
            · intro k hk
              rw [ihext k (henq.vis_mono k hk)]
              exact henq.depth_pres k hk
            · intro ev hev
              cases ihtr ev hev with
              | inl hin =>
                cases List.mem_append.mp hin with
                | inl hin2 => exact Or.inl hin2
                | inr hin2 =>
                  have hev2 : ev = (u, succs) := by simpa using hin2
                  subst hev2
                  refine Or.inr ?_
                  intro pr hpr
                  have hkey : to_string pr.2 ∈
                      (enqueue_successors u (to_string u) succs
                        { Q := rest, vis := vis, parent := parent, depth := depth,
                          gen := gen', states := states + 1 }).vis :=
                    enqueue_mem_succs u (to_string u) succs _ pr hpr
                  have hb := henq.vis_bound _ hkey
                  have hded : Dk stf.depth (to_string pr.2) =
                      Dk (enqueue_successors u (to_string u) succs
                        { Q := rest, vis := vis, parent := parent, depth := depth,
                          gen := gen', states := states + 1 }).depth (to_string pr.2) := by
                    simp only [Dk]
                    rw [ihext _ hkey]
                  have hdu : Dk stf.depth (to_string u) =
                      Dk depth (to_string u) := by
                    simp only [Dk]
                    rw [ihext _ (henq.vis_mono _ hmemu), henq.depth_pres _ hmemu]
                  rw [hded, hdu]
                  simpa using hb
              | inr hprop => exact Or.inr hprop

theorem chain_edge_depth_le (trf : List TraceEvent) (depth : List (String × Nat))
    (hedge : ∀ a b, trace_edge trf a b → Dk depth b ≤ Dk depth a + 1) :
    ∀ (ks : List String) (a : String), List.Chain (trace_edge trf) a ks →
      Dk depth (ks.getLastD a) ≤ Dk depth a + ks.length := by
  intro ks
  induction ks with
  | nil => intro a _; simp
  | cons b ks ih =>
    intro a hch
    rw [List.chain_cons] at hch
    obtain ⟨hab, hch⟩ := hch
    have h1 := ih b hch
    have h2 := hedge a b hab
    simp only [List.getLastD_cons, List.length_cons]
    omega

/-- C3: BFS optimality.  If the engine's search (`find_shortest_path`,
an exact embedding of the C++ loop with an explicit iteration budget)
returns a proof path, then every walk through the state graph the engine
enumerated under the same bounds — a chain of recorded expansion edges
leading from the start key to the target key — is at least as long as
the returned path.  In particular no shorter path exists among the
enumerated states. -/
theorem bfs_returns_shortest (fuel : Nat) (axioms : List Rule)
    (start target : Node) (md mts : Nat) (path : List (String × Node))
    (stf : SearchState) (trf : List TraceEvent)
    (h : find_shortest_path fuel axioms start target md mts =
      SearchResult.found path stf trf)
    (ks : List String)
    (hch : List.Chain (trace_edge trf) (to_string start) ks)
    (hlast : ks.getLastD (to_string start) = to_string target) :
    path.length ≤ ks.length := by
  rw [find_shortest_path] at h
  obtain ⟨hext, hstart0, htr, hlen⟩ :=
    bfs_found_depths axioms md mts (to_string start) (to_string target) fuel
      (init_state start) [] (searchinv_init start) path stf trf h
  have hedge : ∀ a b, trace_edge trf a b →
      Dk stf.depth b ≤ Dk stf.depth a + 1 := by
    intro a b hab
    obtain ⟨ev, hev, ha, pr, hpr, hb⟩ := hab
    cases htr ev hev with
    | inl hc => simp at hc
    | inr hprop =>
      have hle := hprop pr hpr
      rw [ha, hb] at hle
      exact hle
  have hchain := chain_edge_depth_le trf stf.depth hedge ks (to_string start) hch
  rw [hlast] at hchain
  have hs0 : Dk stf.depth (to_string start) = 0 := by
    simp [Dk, hstart0]
  rw [hlen]
  omega

theorem bfs_returns_shortest_witness :
    find_shortest_path 1 [] (Node.prim "1") (Node.prim "1") 8 20 =
      SearchResult.found [] ⟨[], ["1"], [], [], 0, 1⟩ [] ∧
    ([] : List (String × Node)).length ≤ ([] : List String).length := by
  refine ⟨by decide, ?_⟩
  exact bfs_returns_shortest 1 [] (Node.prim "1") (Node.prim "1") 8 20 []
    ⟨[], ["1"], [], [], 0, 1⟩ [] (by decide) [] List.Chain.nil (by decide)
